import Mathlib

/-!
Shallow embedding of the `tc_circuit` package (net clustering, dependency
graph construction, topological compile dispatch, structural-netlist export
helpers, cache management, parse-state loading), together with proofs about
the claims of its specification.

Python dictionaries are embedded as insertion-ordered association lists
(`List (κ × β)`) with update-in-place semantics (`alSet`), Python sets of
points as duplicate-free lists grown by `addPt`, and Python `assert` /
`raise` failures as `Option`/`Except` results.
-/

namespace TCC

/-- Grid point, as in `save_monger.Point` (integer coordinates). -/
structure Point where
  x : Int
  y : Int
deriving DecidableEq, Repr

instance : Add Point := ⟨fun a b => ⟨a.x + b.x, a.y + b.y⟩⟩

/-- The four axis-aligned rotation matrices `(xx, xy, yx, yy)` from
`TCComponent.area` in `component_types.py`. -/
def rotMatrix : Fin 4 → Int × Int × Int × Int
  | 0 => (1, 0, 0, 1)
  | 1 => (0, -1, 1, 0)
  | 2 => (-1, 0, 0, -1)
  | 3 => (0, 1, -1, 0)

/-- Modelled from the spec: `save_monger.Point.rotate` is external to the
repository; the spec states pin positions rotate by the same four
axis-aligned matrices used for footprint cells in `TCComponent.area`. -/
def Point.rotate (p : Point) (r : Fin 4) : Point :=
  let m := rotMatrix r
  ⟨p.x * m.1 + p.y * m.2.1, p.x * m.2.2.1 + p.y * m.2.2.2⟩

section AList

variable {κ : Type} {β : Type} [DecidableEq κ]

/-- Lookup in an association list (Python `dict` read / `dict.get`). -/
def alGet : List (κ × β) → κ → Option β
  | [], _ => none
  | (k', v) :: t, k => if k' = k then some v else alGet t k

/-- Update in an association list: replace the existing binding in place,
else append at the end (Python `dict.__setitem__`, insertion ordered). -/
def alSet : List (κ × β) → κ → β → List (κ × β)
  | [], k, v => [(k, v)]
  | (k', v') :: t, k, v => if k' = k then (k, v) :: t else (k', v') :: alSet t k v

/-- Apply `f` to the value bound to `k` (Python mutation of the stored
object, which keeps its place in the dict; dict keys are unique, so only
the first binding is relevant). -/
def alModify : List (κ × β) → κ → (β → β) → List (κ × β)
  | [], _, _ => []
  | (k', v) :: t, k, f => if k' = k then (k', f v) :: t else (k', v) :: alModify t k f

/-- Remove the binding of `k` (Python `del d[k]`; dict keys are unique). -/
def alErase : List (κ × β) → κ → List (κ × β)
  | [], _ => []
  | (k', v) :: t, k => if k' = k then t else (k', v) :: alErase t k

@[simp] theorem alGet_nil (k : κ) : alGet ([] : List (κ × β)) k = none := rfl

theorem alGet_cons (k' : κ) (v : β) (t : List (κ × β)) (k : κ) :
    alGet ((k', v) :: t) k = if k' = k then some v else alGet t k := rfl

theorem alGet_mem (m : List (κ × β)) (k : κ) (v : β) (h : alGet m k = some v) :
    (k, v) ∈ m := by
  induction m with
  | nil => simp [alGet] at h
  | cons e t ih =>
    obtain ⟨k₀, v₀⟩ := e
    by_cases h₀ : k₀ = k
    · subst h₀
      simp [alGet] at h
      subst h; exact List.mem_cons_self _ _
    · simp [alGet, h₀] at h
      exact List.mem_cons_of_mem _ (ih h)

@[simp] theorem alGet_alSet_self (m : List (κ × β)) (k : κ) (v : β) :
    alGet (alSet m k v) k = some v := by
  induction m with
  | nil => simp [alSet, alGet]
  | cons e t ih =>
    obtain ⟨k', v'⟩ := e
    by_cases h : k' = k <;> simp [alSet, alGet, h, ih]

theorem alGet_alSet_ne (m : List (κ × β)) (k k' : κ) (v : β) (h : k' ≠ k) :
    alGet (alSet m k v) k' = alGet m k' := by
  induction m with
  | nil => simp [alSet, alGet, Ne.symm h]
  | cons e t ih =>
    obtain ⟨k₀, v₀⟩ := e
    by_cases h₀ : k₀ = k
    · subst h₀
      simp [alSet, alGet, Ne.symm h]
    · simp [alSet, alGet, h₀, ih]

theorem alGet_alModify_self (m : List (κ × β)) (k : κ) (f : β → β) :
    alGet (alModify m k f) k = (alGet m k).map f := by
  induction m with
  | nil => rfl
  | cons e t ih =>
    obtain ⟨k₀, v₀⟩ := e
    by_cases h₀ : k₀ = k
    · subst h₀
      simp [alModify, alGet]
    · simp [alModify, alGet, h₀, ih]

theorem alGet_alModify_ne (m : List (κ × β)) (k k' : κ) (f : β → β) (h : k' ≠ k) :
    alGet (alModify m k f) k' = alGet m k' := by
  induction m with
  | nil => rfl
  | cons e t ih =>
    obtain ⟨k₀, v₀⟩ := e
    by_cases h₀ : k₀ = k
    · subst h₀
      simp [alModify, alGet, Ne.symm h]
    · simp [alModify, alGet, h₀, ih]

theorem alGet_alErase_self (m : List (κ × β)) (k : κ)
    (hn : (m.map Prod.fst).Nodup) : alGet (alErase m k) k = none := by
  induction m with
  | nil => rfl
  | cons e t ih =>
    obtain ⟨k₀, v₀⟩ := e
    simp only [List.map_cons, List.nodup_cons] at hn
    by_cases h₀ : k₀ = k
    · subst h₀
      have he : alErase ((k₀, v₀) :: t) k₀ = t := by simp [alErase]
      rw [he]
      rcases ho : alGet t k₀ with _ | v
      · rfl
      · exact absurd (by simpa using List.mem_map_of_mem Prod.fst (alGet_mem t k₀ v ho)) hn.1
    · simp [alErase, alGet, h₀, ih hn.2]

theorem alGet_alErase_ne (m : List (κ × β)) (k k' : κ) (h : k' ≠ k) :
    alGet (alErase m k) k' = alGet m k' := by
  induction m with
  | nil => rfl
  | cons e t ih =>
    obtain ⟨k₀, v₀⟩ := e
    by_cases h₀ : k₀ = k
    · subst h₀
      simp [alErase, alGet, Ne.symm h]
    · simp [alErase, alGet, h₀, ih]

theorem alGet_isSome_iff (m : List (κ × β)) (k : κ) :
    (alGet m k).isSome ↔ k ∈ m.map Prod.fst := by
  induction m with
  | nil => simp [alGet]
  | cons e t ih =>
    obtain ⟨k₀, v₀⟩ := e
    by_cases h₀ : k₀ = k
    · subst h₀
      simp [alGet]
    · simp [alGet, h₀, ih, Ne.symm h₀]

theorem mem_alGet_of_nodup (m : List (κ × β)) (k : κ) (v : β)
    (hn : (m.map Prod.fst).Nodup) (h : (k, v) ∈ m) : alGet m k = some v := by
  induction m with
  | nil => simp at h
  | cons e t ih =>
    obtain ⟨k₀, v₀⟩ := e
    simp only [List.map_cons, List.nodup_cons] at hn
    rcases List.mem_cons.mp h with h | h
    · cases h
      simp [alGet]
    · have hk : ¬ k₀ = k := by
        intro hh
        subst hh
        exact hn.1 (by simpa using List.mem_map_of_mem Prod.fst h)
      simp [alGet, hk]
      exact ih hn.2 h

theorem alModify_map_fst (m : List (κ × β)) (k : κ) (f : β → β) :
    (alModify m k f).map Prod.fst = m.map Prod.fst := by
  induction m with
  | nil => rfl
  | cons e t ih =>
    obtain ⟨k₀, v₀⟩ := e
    by_cases h₀ : k₀ = k
    · subst h₀
      simp [alModify]
    · simp [alModify, h₀, ih]

theorem alErase_map_fst_sublist (m : List (κ × β)) (k : κ) :
    List.Sublist ((alErase m k).map Prod.fst) (m.map Prod.fst) := by
  induction m with
  | nil => simp [alErase]
  | cons e t ih =>
    obtain ⟨k₀, v₀⟩ := e
    by_cases h₀ : k₀ = k
    · subst h₀
      simp [alErase]
    · simp [alErase, h₀]
      exact ih

end AList

/-- Pin roles as matched by `TCCircuit.clusters` in `tc_circuit.py`
(strings `'bidi'`, `'output'`, `'output_tristate'`, `'input'`; any other
string, e.g. `'input_late'` from `combined_pins`, hits the
`raise ValueError` arm). -/
inductive PinKind where
  | input
  | output
  | output_tristate
  | bidi
  | input_late
deriving DecidableEq, Repr

/-- Component kinds (`save_monger.ComponentKind`): the embedding only
distinguishes the kinds the claims need. -/
inductive ComponentKind where
  | Custom
  | VirtualCustom
  | Other (n : Nat)
deriving DecidableEq, Repr

/-- Enum `ComponentCategory` from `component_info.py`. -/
inductive ComponentCategory where
  | default
  | is_io
  | has_virtual
  | is_virtual
deriving DecidableEq, Repr

/-- Model of `PinInfo` from `component_info.py` (the `label` field is irrelevant to
every claim and omitted). -/
structure PinInfo where
  kind : PinKind
  width : Nat
  pos : Point
deriving DecidableEq, Repr

/-- Model of `ComponentInfo` from `component_info.py`, restricted to the fields the
claims touch (`backend_only`, `area`, `other` omitted). -/
structure ComponentInfo where
  kind : ComponentKind
  category : ComponentCategory
  pins : List PinInfo
  counterpart : Option ComponentKind := none
deriving DecidableEq, Repr

/-- A placed component: `TCComponent` from `component_types.py`
(`pos`, `rotation`) together with its class-level `info`. -/
structure TCComponent where
  pos : Point
  rotation : Fin 4
  info : ComponentInfo
deriving DecidableEq, Repr

/-- Model of `save_monger.ParseWire`, restricted to the two endpoints used by
`TCCircuit.clusters` (`endp` embeds the Python attribute `wire.end`;
`end` is a Lean keyword). -/
structure ParseWire where
  start : Point
  endp : Point
deriving DecidableEq, Repr

/-- Model of `WireCluster` from `tc_circuit.py`.  Python's `set[Point]` for
`points` is embedded as a duplicate-free list grown by `addPt`. -/
structure WireCluster where
  segments : List Nat
  points : List Point
  sources : List (Nat × Nat)
  targets : List (Nat × Nat)
  bidis : List (Nat × Nat)
deriving DecidableEq, Repr

/-- Python `set.add`: no-op when the element is present. -/
def addPt (ps : List Point) (p : Point) : List Point :=
  if p ∈ ps then ps else ps ++ [p]

/-- The state built by the `TCCircuit.clusters` property: the surviving
clusters keyed by identity (Python keys `all_clusters` by object identity;
here each cluster created gets the fresh id `nextId`), plus the
`point_to_cluster` dict mapping each grid point to the id of its cluster. -/
structure ClusterState where
  nextId : Nat
  clusters : List (Nat × WireCluster)
  pointTo : List (Point × Nat)
deriving DecidableEq, Repr

/-- One iteration of the wire-segment loop of `TCCircuit.clusters`
(`for wire_id, wire in self.wires.items()`), matching on
`(e_cluster, s_cluster)` exactly as the source does. -/
def clusterStep (st : ClusterState) (w : Nat × ParseWire) : ClusterState :=
  let wireId := w.1
  let wire := w.2
  match alGet st.pointTo wire.endp, alGet st.pointTo wire.start with
  | none, none =>
      let c : WireCluster := ⟨[wireId], addPt (addPt [] wire.start) wire.endp, [], [], []⟩
      { nextId := st.nextId + 1,
        clusters := st.clusters ++ [(st.nextId, c)],
        pointTo := alSet (alSet st.pointTo wire.start st.nextId) wire.endp st.nextId }
  | some c, none =>
      { st with
        pointTo := alSet (alSet st.pointTo wire.start c) wire.endp c,
        clusters := alModify st.clusters c fun cl =>
          { cl with segments := cl.segments ++ [wireId],
                    points := addPt (addPt cl.points wire.start) wire.endp } }
  | none, some c =>
      { st with
        pointTo := alSet (alSet st.pointTo wire.start c) wire.endp c,
        clusters := alModify st.clusters c fun cl =>
          { cl with segments := cl.segments ++ [wireId],
                    points := addPt (addPt cl.points wire.start) wire.endp } }
  | some a, some b =>
      if a = b then
        { st with clusters := alModify st.clusters a fun cl =>
            { cl with segments := cl.segments ++ [wireId] } }
      else
        match alGet st.clusters b with
        | some cb =>
            { st with
              clusters := alErase (alModify st.clusters a fun cl =>
                  { cl with segments := cl.segments ++ cb.segments ++ [wireId],
                            points := cb.points.foldl addPt cl.points }) b,
              pointTo := cb.points.foldl (fun m p => alSet m p a) st.pointTo }
        | none => st  -- unreachable: `pointTo` only holds ids of surviving clusters

/-- The wire-segment phase of `TCCircuit.clusters`. -/
def runClusters (wires : List (Nat × ParseWire)) : ClusterState :=
  wires.foldl clusterStep ⟨0, [], []⟩

/-- The global position of pin `pin` of component `comp`
(`component.pos + pin.pos.rotate(component.rotation)`). -/
def pinGlobalPos (comp : TCComponent) (pin : PinInfo) : Point :=
  comp.pos + pin.pos.rotate comp.rotation

/-- One iteration of the pin loop of `TCCircuit.clusters`: attach
`(component_id, pin_id)` to the role list selected by the pin kind; an
unknown pin kind is the `raise ValueError` arm (`none`). -/
def attachPin (st : ClusterState) (cid : Nat) (comp : TCComponent)
    (pinId : Nat) (pin : PinInfo) : Option ClusterState :=
  match alGet st.pointTo (pinGlobalPos comp pin) with
  | none => some st
  | some cl =>
    match pin.kind with
    | .bidi => some { st with clusters := alModify st.clusters cl fun c =>
        { c with bidis := c.bidis ++ [(cid, pinId)] } }
    | .output => some { st with clusters := alModify st.clusters cl fun c =>
        { c with sources := c.sources ++ [(cid, pinId)] } }
    | .output_tristate => some { st with clusters := alModify st.clusters cl fun c =>
        { c with sources := c.sources ++ [(cid, pinId)] } }
    | .input => some { st with clusters := alModify st.clusters cl fun c =>
        { c with targets := c.targets ++ [(cid, pinId)] } }
    | .input_late => none

/-- The component/pin phase of `TCCircuit.clusters`
(`for component_id, component in self.components.items(): for pin_id, pin
in enumerate(component.info.pins)`). -/
def attachPins (comps : List (Nat × TCComponent)) (st : ClusterState) :
    Option ClusterState :=
  comps.foldl
    (fun acc e =>
      acc.bind fun st =>
        e.2.info.pins.enum.foldl
          (fun acc2 pe => acc2.bind fun st2 => attachPin st2 e.1 e.2 pe.1 pe.2)
          (some st))
    (some st)

/-- The full `TCCircuit.clusters` computation. -/
def clusters (wires : List (Nat × ParseWire)) (comps : List (Nat × TCComponent)) :
    Option ClusterState :=
  attachPins comps (runClusters wires)

/-! ### Connectivity: the order-independent specification of clustering -/

/-- The endpoint pairs of a wire list. -/
def wireEdges (wires : List (Nat × ParseWire)) : List (Point × Point) :=
  wires.map fun w => (w.2.start, w.2.endp)

/-- Two points joined by a single wire segment of `E`. -/
def Adj (E : List (Point × Point)) (p q : Point) : Prop :=
  (p, q) ∈ E ∨ (q, p) ∈ E

/-- A point that is an endpoint of some segment of `E`. -/
def Touched (E : List (Point × Point)) (p : Point) : Prop :=
  ∃ e ∈ E, p = e.1 ∨ p = e.2

/-- Connectivity through wire segments of `E`. -/
def Conn (E : List (Point × Point)) (p q : Point) : Prop :=
  Relation.ReflTransGen (Adj E) p q

theorem Adj.symm' {E : List (Point × Point)} {p q : Point} (h : Adj E p q) :
    Adj E q p := h.elim Or.inr Or.inl

theorem conn_refl (E : List (Point × Point)) (p : Point) : Conn E p p :=
  Relation.ReflTransGen.refl

theorem conn_symm {E : List (Point × Point)} {p q : Point} (h : Conn E p q) :
    Conn E q p :=
  Relation.ReflTransGen.symmetric (fun _ _ hh => hh.symm') h

theorem conn_trans {E : List (Point × Point)} {p q r : Point}
    (h₁ : Conn E p q) (h₂ : Conn E q r) : Conn E p r :=
  Relation.ReflTransGen.trans h₁ h₂

theorem conn_single {E : List (Point × Point)} {p q : Point} (h : Adj E p q) :
    Conn E p q :=
  Relation.ReflTransGen.single h

theorem touched_of_adj_left {E : List (Point × Point)} {p q : Point}
    (h : Adj E p q) : Touched E p := by
  rcases h with h | h
  · exact ⟨(p, q), h, Or.inl rfl⟩
  · exact ⟨(q, p), h, Or.inr rfl⟩

theorem touched_of_adj_right {E : List (Point × Point)} {p q : Point}
    (h : Adj E p q) : Touched E q := touched_of_adj_left h.symm'

theorem conn_eq_or_touched_left {E : List (Point × Point)} {p q : Point}
    (h : Conn E p q) : p = q ∨ Touched E p := by
  rcases Relation.ReflTransGen.cases_head h with h | ⟨c, hc, _⟩
  · exact Or.inl h
  · exact Or.inr (touched_of_adj_left hc)

theorem conn_eq_or_touched_right {E : List (Point × Point)} {p q : Point}
    (h : Conn E p q) : p = q ∨ Touched E q := by
  rcases conn_eq_or_touched_left (conn_symm h) with h | h
  · exact Or.inl h.symm
  · exact Or.inr h

theorem conn_eq_of_untouched {E : List (Point × Point)} {p q : Point}
    (h : Conn E p q) (hp : ¬ Touched E p) : p = q :=
  (conn_eq_or_touched_left h).resolve_right hp

theorem adj_mono {E E' : List (Point × Point)} (hm : ∀ e ∈ E, e ∈ E')
    {p q : Point} (h : Adj E p q) : Adj E' p q := by
  rcases h with h | h
  · exact Or.inl (hm _ h)
  · exact Or.inr (hm _ h)

theorem conn_mono {E E' : List (Point × Point)} (hm : ∀ e ∈ E, e ∈ E')
    {p q : Point} (h : Conn E p q) : Conn E' p q :=
  Relation.ReflTransGen.mono (fun _ _ hh => adj_mono hm hh) h

theorem conn_append {E L : List (Point × Point)} {p q : Point}
    (h : Conn E p q) : Conn (E ++ L) p q :=
  conn_mono (fun e he => List.mem_append_left _ he) h

theorem touched_mono {E E' : List (Point × Point)} (hm : ∀ e ∈ E, e ∈ E')
    {p : Point} (h : Touched E p) : Touched E' p := by
  obtain ⟨e, he, hp⟩ := h
  exact ⟨e, hm _ he, hp⟩

theorem adj_append_iff {E : List (Point × Point)} {s t p q : Point} :
    Adj (E ++ [(s, t)]) p q ↔ Adj E p q ∨ (p = s ∧ q = t) ∨ (p = t ∧ q = s) := by
  simp only [Adj, List.mem_append, List.mem_singleton, Prod.mk.injEq]
  tauto

theorem touched_append_iff {E : List (Point × Point)} {s t p : Point} :
    Touched (E ++ [(s, t)]) p ↔ Touched E p ∨ p = s ∨ p = t := by
  simp only [Touched, List.mem_append, List.mem_singleton]
  constructor
  · rintro ⟨e, he | he, hp⟩
    · exact Or.inl ⟨e, he, hp⟩
    · subst he
      rcases hp with hp | hp

      · exact Or.inr (Or.inl hp)
      · exact Or.inr (Or.inr hp)
  · rintro (⟨e, he, hp⟩ | hp | hp)
    · exact ⟨e, Or.inl he, hp⟩
    · exact ⟨(s, t), Or.inr rfl, Or.inl hp⟩
    · exact ⟨(s, t), Or.inr rfl, Or.inr hp⟩

theorem conn_new_edge {E : List (Point × Point)} (s t : Point) :
    Conn (E ++ [(s, t)]) s t :=
  conn_single (Or.inl (List.mem_append_right _ (List.mem_singleton.mpr rfl)))

/-- Splitting a connectivity path of `E ++ [(s, t)]` at its uses of the new
edge. -/
theorem conn_append_decompose {E : List (Point × Point)} {s t p q : Point}
    (h : Conn (E ++ [(s, t)]) p q) :
    Conn E p q ∨ (Conn E p s ∧ Conn E t q) ∨ (Conn E p t ∧ Conn E s q) := by
  induction h using Relation.ReflTransGen.head_induction_on with
  | refl => exact Or.inl Relation.ReflTransGen.refl
  | head hadj _ ih =>
    rename_i x c _
    rcases adj_append_iff.mp hadj with hxc | ⟨hx, hc⟩ | ⟨hx, hc⟩
    · rcases ih with ih | ⟨ih₁, ih₂⟩ | ⟨ih₁, ih₂⟩
      · exact Or.inl (conn_trans (conn_single hxc) ih)
      · exact Or.inr (Or.inl ⟨conn_trans (conn_single hxc) ih₁, ih₂⟩)
      · exact Or.inr (Or.inr ⟨conn_trans (conn_single hxc) ih₁, ih₂⟩)
    · subst hx; subst hc
      rcases ih with ih | ⟨_, ih₂⟩ | ⟨_, ih₂⟩
      · exact Or.inr (Or.inl ⟨conn_refl _ _, ih⟩)
      · exact Or.inr (Or.inl ⟨conn_refl _ _, ih₂⟩)
      · exact Or.inl ih₂
    · subst hx; subst hc
      rcases ih with ih | ⟨_, ih₂⟩ | ⟨_, ih₂⟩
      · exact Or.inr (Or.inr ⟨conn_refl _ _, ih⟩)
      · exact Or.inl ih₂
      · exact Or.inr (Or.inr ⟨conn_refl _ _, ih₂⟩)

/-! ### Helper lemmas about `addPt` and folded updates -/

theorem mem_addPt {ps : List Point} {p q : Point} :
    q ∈ addPt ps p ↔ q ∈ ps ∨ q = p := by
  by_cases h : p ∈ ps
  · simp only [addPt, if_pos h]
    constructor
    · exact Or.inl
    · rintro (hq | rfl)
      · exact hq
      · exact h
  · simp [addPt, if_neg h]

theorem addPt_ne_nil {ps : List Point} {p : Point} : addPt ps p ≠ [] := by
  intro h
  have : p ∈ addPt ps p := mem_addPt.mpr (Or.inr rfl)
  rw [h] at this
  simp at this

theorem mem_foldl_addPt {ps : List Point} {l : List Point} {q : Point} :
    q ∈ ps.foldl addPt l ↔ q ∈ l ∨ q ∈ ps := by
  induction ps generalizing l with
  | nil => simp
  | cons p ps ih =>
    simp only [List.foldl_cons, ih, mem_addPt, List.mem_cons]
    tauto

theorem foldl_addPt_ne_nil {ps l : List Point} (h : l ≠ []) :
    ps.foldl addPt l ≠ [] := by
  obtain ⟨x, hx⟩ := List.exists_mem_of_ne_nil l h
  exact List.ne_nil_of_mem (mem_foldl_addPt.mpr (Or.inl hx))

theorem alGet_foldl_alSet (ps : List Point) (m : List (Point × Nat)) (v : Nat)
    (x : Point) :
    alGet (ps.foldl (fun m p => alSet m p v) m) x =
      if x ∈ ps then some v else alGet m x := by
  induction ps generalizing m with
  | nil => simp
  | cons p ps ih =>
    simp only [List.foldl_cons, ih, List.mem_cons]
    by_cases hx : x ∈ ps
    · simp [hx]
    · by_cases hxp : x = p
      · subst hxp
        simp [hx]

      · simp [hx, hxp, alGet_alSet_ne _ _ _ _ hxp]

theorem alGet_append {κ β : Type} [DecidableEq κ] (m m' : List (κ × β)) (k : κ) :
    alGet (m ++ m') k = ((alGet m k).rec (alGet m' k) (fun v => some v) : Option β) := by
  induction m with
  | nil => simp [alGet]
  | cons e t ih =>
    obtain ⟨k₀, v₀⟩ := e
    by_cases h₀ : k₀ = k
    · subst h₀
      simp [alGet]
    · simp [alGet, h₀, ih]

theorem alGet_append_of_some {κ β : Type} [DecidableEq κ] {m : List (κ × β)}
    (m' : List (κ × β)) {k : κ} {v : β} (h : alGet m k = some v) :
    alGet (m ++ m') k = some v := by
  rw [alGet_append, h]

theorem alGet_append_of_none {κ β : Type} [DecidableEq κ] {m : List (κ × β)}
    (m' : List (κ × β)) {k : κ} (h : alGet m k = none) :
    alGet (m ++ m') k = alGet m' k := by
  rw [alGet_append, h]

/-! ### The clustering invariant -/

/-- Invariant of the wire-segment loop of `TCCircuit.clusters`, after the
segments whose endpoint pairs are `E` have been processed: `pointTo` and
the member-point lists of the surviving clusters describe exactly the
partition of touched points into connectivity classes of `E`. -/
structure Inv (st : ClusterState) (E : List (Point × Point)) : Prop where
  nodup : (st.clusters.map Prod.fst).Nodup
  lt : ∀ cid ∈ st.clusters.map Prod.fst, cid < st.nextId
  mem_of_pt : ∀ p cid, alGet st.pointTo p = some cid →
      ∃ c, alGet st.clusters cid = some c ∧ p ∈ c.points
  pt_of_mem : ∀ cid c, alGet st.clusters cid = some c →
      ∀ p ∈ c.points, alGet st.pointTo p = some cid
  nonempty : ∀ cid c, alGet st.clusters cid = some c → c.points ≠ []
  dom : ∀ p, (alGet st.pointTo p).isSome ↔ Touched E p
  conn : ∀ p q cid, alGet st.pointTo p = some cid →
      (alGet st.pointTo q = some cid ↔ Conn E p q)

theorem Inv.untouched {st : ClusterState} {E : List (Point × Point)}
    (inv : Inv st E) {p : Point} (h : alGet st.pointTo p = none) :
    ¬ Touched E p := by
  rw [← inv.dom, h]
  simp

theorem Inv.touched {st : ClusterState} {E : List (Point × Point)}
    (inv : Inv st E) {p : Point} {cid : Nat}
    (h : alGet st.pointTo p = some cid) : Touched E p := by
  rw [← inv.dom, h]
  rfl

theorem Inv.key_lt {st : ClusterState} {E : List (Point × Point)}
    (inv : Inv st E) {p : Point} {cid : Nat}
    (h : alGet st.pointTo p = some cid) : cid < st.nextId := by
  obtain ⟨c, hc, _⟩ := inv.mem_of_pt p cid h
  exact inv.lt cid ((alGet_isSome_iff _ _).mp (by rw [hc]; rfl))

theorem Inv.nextId_not_key {st : ClusterState} {E : List (Point × Point)}
    (inv : Inv st E) : alGet st.clusters st.nextId = none := by
  rcases h : alGet st.clusters st.nextId with _ | c
  · rfl
  · exact absurd (inv.lt _ ((alGet_isSome_iff _ _).mp (by rw [h]; rfl)))
      (lt_irrefl _)

theorem inv_init : Inv ⟨0, [], []⟩ [] := by
  constructor
  · simp
  · simp
  · intro p cid h; simp [alGet] at h
  · intro cid c h; simp [alGet] at h
  · intro cid c h; simp [alGet] at h
  · intro p
    constructor
    · intro h; simp [alGet] at h
    · rintro ⟨e, he, _⟩; simp at he
  · intro p q cid h; simp [alGet] at h

theorem alGet_alSet₂ (m : List (Point × Nat)) (s t : Point) (v : Nat) (x : Point) :
    alGet (alSet (alSet m s v) t v) x =
      if x = t ∨ x = s then some v else alGet m x := by
  by_cases hx : x = t
  · subst hx
    simp
  · rw [alGet_alSet_ne _ _ _ _ hx]
    by_cases hx' : x = s
    · subst hx'
      simp [hx]
    · rw [alGet_alSet_ne _ _ _ _ hx']
      simp [hx, hx']

/-- Preservation of the invariant: the `(None, None)` arm (a fresh cluster
is created from the new segment). -/
theorem inv_step_new {st : ClusterState} {E : List (Point × Point)}
    (inv : Inv st E) (wid : Nat) (s t : Point)
    (ht : alGet st.pointTo t = none)
    (hs : alGet st.pointTo s = none) :
    Inv { nextId := st.nextId + 1,
          clusters := st.clusters ++
            [(st.nextId, ⟨[wid], addPt (addPt [] s) t, [], [], []⟩)],
          pointTo := alSet (alSet st.pointTo s st.nextId) t st.nextId }
        (E ++ [(s, t)]) := by
  have hptx : ∀ x, alGet (alSet (alSet st.pointTo s st.nextId) t st.nextId) x =
      if x = t ∨ x = s then some st.nextId else alGet st.pointTo x := by
    intro x
    by_cases hx : x = t
    · subst hx
      simp
    · rw [alGet_alSet_ne _ _ _ _ hx]
      by_cases hx' : x = s
      · subst hx'
        simp [hx]
      · rw [alGet_alSet_ne _ _ _ _ hx']
        simp [hx, hx']
  have hclN : alGet
      (st.clusters ++ [(st.nextId, (⟨[wid], addPt (addPt [] s) t, [], [], []⟩ : WireCluster))])
      st.nextId = some ⟨[wid], addPt (addPt [] s) t, [], [], []⟩ := by
    rw [alGet_append_of_none _ inv.nextId_not_key]
    simp [alGet]
  have hclO : ∀ cid, cid ≠ st.nextId →
      alGet (st.clusters ++
        [(st.nextId, (⟨[wid], addPt (addPt [] s) t, [], [], []⟩ : WireCluster))]) cid =
      alGet st.clusters cid := by
    intro cid hcid
    rcases h : alGet st.clusters cid with _ | c
    · rw [alGet_append_of_none _ h]
      simp [alGet, Ne.symm hcid]
    · exact alGet_append_of_some _ h
  have hmemc0 : ∀ p : Point,
      (p ∈ (⟨[wid], addPt (addPt [] s) t, [], [], []⟩ : WireCluster).points) ↔
        p = s ∨ p = t := by
    intro p
    simp only [mem_addPt]
    simp
  have hTt : ¬ Touched E t := inv.untouched ht
  have hTs : ¬ Touched E s := inv.untouched hs
  constructor
  · -- nodup
    simp only [List.map_append, List.map_cons, List.map_nil]
    rw [List.nodup_append]
    refine ⟨inv.nodup, List.nodup_singleton _, ?_⟩
    intro x hx
    simp only [List.mem_singleton]
    intro hxn
    have hxmem := (alGet_isSome_iff st.clusters x).mpr hx
    rw [hxn, inv.nextId_not_key] at hxmem
    simp at hxmem
  · -- lt
    intro cid hcid
    simp only [List.map_append, List.map_cons, List.map_nil, List.mem_append,
      List.mem_singleton] at hcid
    rcases hcid with hcid | hcid
    · exact Nat.lt_succ_of_lt (inv.lt cid hcid)
    · subst hcid; exact Nat.lt_succ_self _
  · -- mem_of_pt
    intro p cid h
    rw [hptx] at h
    by_cases hp : p = t ∨ p = s
    · rw [if_pos hp] at h
      cases h
      refine ⟨_, hclN, ?_⟩
      rw [hmemc0]
      tauto
    · rw [if_neg hp] at h
      obtain ⟨c, hc, hpc⟩ := inv.mem_of_pt p cid h
      exact ⟨c, alGet_append_of_some _ hc, hpc⟩
  · -- pt_of_mem
    intro cid c hc p hp
    rw [hptx]
    by_cases hcid : cid = st.nextId
    · subst hcid
      rw [hclN] at hc
      cases hc
      rw [hmemc0] at hp
      rw [if_pos (by tauto)]
    · rw [hclO cid hcid] at hc
      have := inv.pt_of_mem cid c hc p hp
      rw [if_neg ?_]
      · exact this
      · rintro (rfl | rfl)
        · rw [ht] at this; cases this
        · rw [hs] at this; cases this
  · -- nonempty
    intro cid c hc
    by_cases hcid : cid = st.nextId
    · subst hcid
      rw [hclN] at hc
      cases hc
      exact addPt_ne_nil
    · rw [hclO cid hcid] at hc
      exact inv.nonempty cid c hc
  · -- dom
    intro p
    rw [hptx, touched_append_iff]
    by_cases hp : p = t ∨ p = s
    · rw [if_pos hp]
      simp only [Option.isSome_some, true_iff]
      tauto
    · rw [if_neg hp]
      rw [inv.dom]
      constructor
      · exact Or.inl
      · rintro (h | h | h)
        · exact h
        · exact absurd (Or.inr h) hp
        · exact absurd (Or.inl h) hp
  · -- conn
    intro p q cid h
    rw [hptx] at h
    by_cases hp : p = t ∨ p = s
    · rw [if_pos hp] at h
      cases h
      rw [hptx]
      by_cases hq : q = t ∨ q = s
      · rw [if_pos hq]
        simp only [true_iff]
        -- both endpoints of the fresh segment: connected via the new edge
        have hedge : Conn (E ++ [(s, t)]) s t := conn_new_edge s t
        rcases hp with rfl | rfl <;> rcases hq with rfl | rfl
        · exact conn_refl _ _
        · exact conn_symm hedge
        · exact hedge
        · exact conn_refl _ _
      · rw [if_neg hq]
        constructor
        · intro hq'
          obtain ⟨c, hc, _⟩ := inv.mem_of_pt q st.nextId hq'
          rw [inv.nextId_not_key] at hc
          cases hc
        · intro hconn
          exfalso
          rcases conn_append_decompose hconn with h1 | ⟨h1, h2⟩ | ⟨h1, h2⟩
          · have hpq : p = q := by
              rcases hp with rfl | rfl
              · exact conn_eq_of_untouched h1 hTt
              · exact conn_eq_of_untouched h1 hTs
            exact hq (hpq ▸ hp)
          · have := conn_eq_of_untouched h2 hTt
            exact hq (Or.inl this.symm)
          · have : s = q := conn_eq_of_untouched h2 hTs
            exact hq (Or.inr this.symm)
    · rw [if_neg hp] at h
      have hcidlt : cid < st.nextId := inv.key_lt h
      rw [hptx]
      by_cases hq : q = t ∨ q = s
      · rw [if_pos hq]
        constructor
        · intro hq'
          cases hq'
          exact absurd rfl (Nat.ne_of_lt hcidlt)
        · intro hconn
          exfalso
          rcases conn_append_decompose hconn with h1 | ⟨h1, h2⟩ | ⟨h1, h2⟩
          · have hpq : p = q := by
              rcases hq with rfl | rfl
              · rcases conn_eq_or_touched_right h1 with hh | hh
                · exact hh
                · exact absurd hh hTt
              · rcases conn_eq_or_touched_right h1 with hh | hh
                · exact hh
                · exact absurd hh hTs
            exact hp (hpq ▸ hq)
          · have : p = s := by
              rcases conn_eq_or_touched_right h1 with hh | hh
              · exact hh
              · exact absurd hh hTs
            exact hp (Or.inr this)
          · have : p = t := by
              rcases conn_eq_or_touched_right h1 with hh | hh
              · exact hh
              · exact absurd hh hTt
            exact hp (Or.inl this)
      · rw [if_neg hq]
        rw [inv.conn p q cid h]
        constructor
        · exact conn_append
        · intro hconn
          rcases conn_append_decompose hconn with h1 | ⟨h1, h2⟩ | ⟨h1, h2⟩
          · exact h1
          · exfalso
            have : p = s := by
              rcases conn_eq_or_touched_right h1 with hh | hh
              · exact hh
              · exact absurd hh hTs
            exact hp (Or.inr this)
          · exfalso
            have : p = t := by
              rcases conn_eq_or_touched_right h1 with hh | hh
              · exact hh
              · exact absurd hh hTt
            exact hp (Or.inl this)

/-- Preservation of the invariant: the two one-endpoint-known arms
(`(cluster, None) | (None, cluster)` in the source); the segment and the
unknown endpoint join the known endpoint's cluster. -/
theorem inv_step_grow {st : ClusterState} {E : List (Point × Point)}
    (inv : Inv st E) (wid : Nat) (s t : Point) (c : Nat)
    (hor : (alGet st.pointTo t = some c ∧ alGet st.pointTo s = none) ∨
           (alGet st.pointTo t = none ∧ alGet st.pointTo s = some c)) :
    Inv { st with
          pointTo := alSet (alSet st.pointTo s c) t c,
          clusters := alModify st.clusters c fun cl =>
            { cl with segments := cl.segments ++ [wid],
                      points := addPt (addPt cl.points s) t } }
        (E ++ [(s, t)]) := by
  -- `u` is the endpoint already owned by cluster `c`, `v` the fresh one.
  obtain ⟨u, v, huc, hvn, hcase⟩ :
      ∃ u v : Point, alGet st.pointTo u = some c ∧ alGet st.pointTo v = none ∧
        ((u = t ∧ v = s) ∨ (u = s ∧ v = t)) := by
    rcases hor with ⟨h₁, h₂⟩ | ⟨h₁, h₂⟩
    · exact ⟨t, s, h₁, h₂, Or.inl ⟨rfl, rfl⟩⟩
    · exact ⟨s, t, h₂, h₁, Or.inr ⟨rfl, rfl⟩⟩
  have hTv : ¬ Touched E v := inv.untouched hvn
  obtain ⟨cc, hccget, huin⟩ := inv.mem_of_pt u c huc
  have hptx : ∀ x, alGet (alSet (alSet st.pointTo s c) t c) x =
      if x = t ∨ x = s then some c else alGet st.pointTo x :=
    alGet_alSet₂ st.pointTo s t c
  have hclC : alGet (alModify st.clusters c fun cl =>
      { cl with segments := cl.segments ++ [wid],
                points := addPt (addPt cl.points s) t }) c =
      some { cc with segments := cc.segments ++ [wid],
                     points := addPt (addPt cc.points s) t } := by
    rw [alGet_alModify_self, hccget]
    rfl
  have hclO : ∀ cid, cid ≠ c → alGet (alModify st.clusters c fun cl =>
      { cl with segments := cl.segments ++ [wid],
                points := addPt (addPt cl.points s) t }) cid =
      alGet st.clusters cid := fun cid hcid => alGet_alModify_ne _ _ _ _ hcid
  have hmemf : ∀ x : Point, x ∈ addPt (addPt cc.points s) t ↔
      x ∈ cc.points ∨ x = s ∨ x = t := by
    intro x
    simp only [mem_addPt]
    tauto
  -- points mapped to a cluster other than `c` are neither `s` nor `t`
  have hnotst : ∀ (x : Point) (cid : Nat), cid ≠ c →
      alGet st.pointTo x = some cid → ¬(x = t ∨ x = s) := by
    intro x cid hcid hx hmem
    rcases hcase with ⟨hu, hv⟩ | ⟨hu, hv⟩ <;> subst hu <;> subst hv <;>
      rcases hmem with rfl | rfl
    · rw [huc] at hx; cases hx; exact hcid rfl
    · rw [hvn] at hx; cases hx
    · rw [hvn] at hx; cases hx
    · rw [huc] at hx; cases hx; exact hcid rfl
  -- everything the new `pointTo` maps to `c` is connected (in `E'`) to `u`
  have hXc : ∀ z, alGet (alSet (alSet st.pointTo s c) t c) z = some c →
      Conn (E ++ [(s, t)]) u z := by
    intro z hz
    rw [hptx] at hz
    have hedge : Conn (E ++ [(s, t)]) s t := conn_new_edge s t
    by_cases hzst : z = t ∨ z = s
    · have huor : u = t ∨ u = s := by
        rcases hcase with ⟨hu, _⟩ | ⟨hu, _⟩
        · exact Or.inl hu
        · exact Or.inr hu
      rcases huor with rfl | rfl <;> rcases hzst with rfl | rfl
      · exact conn_refl _ _
      · exact conn_symm hedge
      · exact hedge
      · exact conn_refl _ _
    · rw [if_neg hzst] at hz
      exact conn_append ((inv.conn u z c huc).mp hz)
  have hYc : ∀ z, Conn (E ++ [(s, t)]) u z →
      alGet (alSet (alSet st.pointTo s c) t c) z = some c := by
    intro z hz
    rcases conn_append_decompose hz with h1 | ⟨h1, h2⟩ | ⟨h1, h2⟩
    · have := (inv.conn u z c huc).mpr h1
      rw [hptx]
      by_cases hzst : z = t ∨ z = s
      · rw [if_pos hzst]
      · rw [if_neg hzst]; exact this
    · -- path `u ⟶ s`, new edge, path `t ⟶ z`
      rcases hcase with ⟨hu, hv⟩ | ⟨hu, hv⟩
      · -- v = s untouched, so the path `u ⟶ s` forces `s = u`, impossible
        subst hu; subst hv
        have := conn_eq_of_untouched (conn_symm h1) hTv
        rw [this] at hvn
        rw [hvn] at huc
        cases huc
      · -- v = t untouched, so `t = z`
        subst hu; subst hv
        have := conn_eq_of_untouched h2 hTv
        rw [hptx, if_pos (Or.inl this.symm)]
    · -- path `u ⟶ t`, new edge reversed, path `s ⟶ z`
      rcases hcase with ⟨hu, hv⟩ | ⟨hu, hv⟩
      · -- v = s untouched, so `s = z`
        subst hu; subst hv
        have := conn_eq_of_untouched h2 hTv
        rw [hptx, if_pos (Or.inr this.symm)]
      · -- v = t untouched, so the path `u ⟶ t` forces `t = u`, impossible
        subst hu; subst hv
        have := conn_eq_of_untouched (conn_symm h1) hTv
        rw [this] at hvn
        rw [hvn] at huc
        cases huc
  constructor
  · -- nodup
    simp only []
    rw [alModify_map_fst]
    exact inv.nodup
  · -- lt
    intro cid hcid
    rw [alModify_map_fst] at hcid
    exact inv.lt cid hcid
  · -- mem_of_pt
    intro p cid h
    simp only [] at h
    rw [hptx] at h
    by_cases hp : p = t ∨ p = s
    · rw [if_pos hp] at h
      cases h
      refine ⟨_, hclC, ?_⟩
      simp only [hmemf]
      tauto
    · rw [if_neg hp] at h
      obtain ⟨c', hc', hpc'⟩ := inv.mem_of_pt p cid h
      by_cases hcid : cid = c
      · rw [hcid] at hc' ⊢
        rw [hccget] at hc'
        cases hc'
        refine ⟨_, hclC, ?_⟩
        simp only [hmemf]
        tauto
      · exact ⟨c', by rw [hclO cid hcid]; exact hc', hpc'⟩
  · -- pt_of_mem
    intro cid c' hc' p hp
    simp only [] at hc' ⊢
    rw [hptx]
    by_cases hcid : cid = c
    · rw [hcid] at hc' ⊢
      rw [hclC] at hc'
      cases hc'
      simp only [hmemf] at hp
      by_cases hpst : p = t ∨ p = s
      · rw [if_pos hpst]
      · rw [if_neg hpst]
        rcases hp with hp | rfl | rfl
        · exact inv.pt_of_mem c cc hccget p hp
        · exact absurd (Or.inr rfl) hpst
        · exact absurd (Or.inl rfl) hpst
    · rw [hclO cid hcid] at hc'
      have := inv.pt_of_mem cid c' hc' p hp
      rw [if_neg (hnotst p cid hcid this)]
      exact this
  · -- nonempty
    intro cid c' hc'
    simp only [] at hc'
    by_cases hcid : cid = c
    · rw [hcid] at hc'
      rw [hclC] at hc'
      cases hc'
      exact addPt_ne_nil
    · rw [hclO cid hcid] at hc'
      exact inv.nonempty cid c' hc'
  · -- dom
    intro p
    simp only []
    rw [hptx, touched_append_iff]
    by_cases hp : p = t ∨ p = s
    · rw [if_pos hp]
      simp only [Option.isSome_some, true_iff]
      tauto
    · rw [if_neg hp, inv.dom]
      constructor
      · exact Or.inl
      · rintro (h | h | h)
        · exact h
        · exact absurd (Or.inr h) hp
        · exact absurd (Or.inl h) hp
  · -- conn
    intro p q cid h
    simp only [] at h ⊢
    by_cases hcid : cid = c
    · rw [hcid] at h ⊢
      constructor
      · intro hq
        exact conn_trans (conn_symm (hXc p h)) (hXc q hq)
      · intro hconn
        exact hYc q (conn_trans (hXc p h) hconn)
    · have hp : ¬(p = t ∨ p = s) := by
        intro hmem
        rw [hptx, if_pos hmem] at h
        cases h
        exact hcid rfl
      rw [hptx, if_neg hp] at h
      constructor
      · intro hq
        have hq' : ¬(q = t ∨ q = s) := by
          intro hmem
          rw [hptx, if_pos hmem] at hq
          cases hq
          exact hcid rfl
        rw [hptx, if_neg hq'] at hq
        exact conn_append ((inv.conn p q cid h).mp hq)
      · intro hconn
        rw [hptx]
        rcases conn_append_decompose hconn with h1 | ⟨h1, h2⟩ | ⟨h1, h2⟩
        · have hq := (inv.conn p q cid h).mpr h1
          rw [if_neg (hnotst q cid hcid hq)]
          exact hq
        · -- a path `p ⟶ s` exists in `E`: impossible for `p` outside `c`
          exfalso
          rcases hcase with ⟨hu, hv⟩ | ⟨hu, hv⟩
          · subst hu; subst hv
            have := conn_eq_of_untouched (conn_symm h1) hTv
            exact hp (Or.inr this.symm)
          · subst hu; subst hv
            have := (inv.conn p u cid h).mpr h1
            rw [huc] at this
            cases this
            exact hcid rfl
        · exfalso
          rcases hcase with ⟨hu, hv⟩ | ⟨hu, hv⟩
          · subst hu; subst hv
            have := (inv.conn p u cid h).mpr h1
            rw [huc] at this
            cases this
            exact hcid rfl
          · subst hu; subst hv
            have := conn_eq_of_untouched (conn_symm h1) hTv
            exact hp (Or.inl this.symm)

/-- Preservation of the invariant: the `(a, b) if a is b` arm (both
endpoints already belong to the same cluster; only the segment list
grows). -/
theorem inv_step_same {st : ClusterState} {E : List (Point × Point)}
    (inv : Inv st E) (wid : Nat) (s t : Point) (a : Nat)
    (ht : alGet st.pointTo t = some a) (hs : alGet st.pointTo s = some a) :
    Inv { st with clusters := alModify st.clusters a fun cl =>
            { cl with segments := cl.segments ++ [wid] } }
        (E ++ [(s, t)]) := by
  obtain ⟨ca, hcaget, htin⟩ := inv.mem_of_pt t a ht
  have hclA : alGet (alModify st.clusters a fun cl =>
      { cl with segments := cl.segments ++ [wid] }) a =
      some { ca with segments := ca.segments ++ [wid] } := by
    rw [alGet_alModify_self, hcaget]
    rfl
  have hclO : ∀ cid, cid ≠ a → alGet (alModify st.clusters a fun cl =>
      { cl with segments := cl.segments ++ [wid] }) cid =
      alGet st.clusters cid := fun cid hcid => alGet_alModify_ne _ _ _ _ hcid
  constructor
  · simp only []
    rw [alModify_map_fst]
    exact inv.nodup
  · intro cid hcid
    rw [alModify_map_fst] at hcid
    exact inv.lt cid hcid
  · -- mem_of_pt
    intro p cid h
    simp only [] at h ⊢
    obtain ⟨c', hc', hpc'⟩ := inv.mem_of_pt p cid h
    by_cases hcid : cid = a
    · rw [hcid] at hc' ⊢
      rw [hcaget] at hc'
      cases hc'
      exact ⟨_, hclA, hpc'⟩
    · exact ⟨c', by rw [hclO cid hcid]; exact hc', hpc'⟩
  · -- pt_of_mem
    intro cid c' hc' p hp
    simp only [] at hc' ⊢
    by_cases hcid : cid = a
    · rw [hcid] at hc' ⊢
      rw [hclA] at hc'
      cases hc'
      exact inv.pt_of_mem a ca hcaget p hp
    · rw [hclO cid hcid] at hc'
      exact inv.pt_of_mem cid c' hc' p hp
  · -- nonempty
    intro cid c' hc'
    simp only [] at hc'
    by_cases hcid : cid = a
    · rw [hcid] at hc'
      rw [hclA] at hc'
      cases hc'
      exact inv.nonempty a ca hcaget
    · rw [hclO cid hcid] at hc'
      exact inv.nonempty cid c' hc'
  · -- dom
    intro p
    simp only []
    rw [touched_append_iff, inv.dom]
    constructor
    · exact Or.inl
    · rintro (h | rfl | rfl)
      · exact h
      · rw [← inv.dom, hs]; rfl
      · rw [← inv.dom, ht]; rfl
  · -- conn
    intro p q cid h
    simp only [] at h ⊢
    rw [inv.conn p q cid h]
    constructor
    · exact conn_append
    · intro hconn
      have hst : Conn E s t := (inv.conn s t a hs).mp ht
      rcases conn_append_decompose hconn with h1 | ⟨h1, h2⟩ | ⟨h1, h2⟩
      · exact h1
      · -- `p ⟶ s`, new edge, `t ⟶ q`: but `s ⟶ t` already inside `E`
        exact conn_trans h1 (conn_trans hst h2)
      · exact conn_trans h1 (conn_trans (conn_symm hst) h2)

/-- Preservation of the invariant: the final `(a, b)` arm (the endpoints
belong to distinct clusters; the cluster of `wire.start` is merged into
the cluster of `wire.end` and discarded). -/
theorem inv_step_merge {st : ClusterState} {E : List (Point × Point)}
    (inv : Inv st E) (wid : Nat) (s t : Point) (a b : Nat)
    (ht : alGet st.pointTo t = some a) (hs : alGet st.pointTo s = some b)
    (hab : a ≠ b) (cb : WireCluster) (hcbget : alGet st.clusters b = some cb) :
    Inv { st with
          clusters := alErase (alModify st.clusters a fun cl =>
              { cl with segments := cl.segments ++ cb.segments ++ [wid],
                        points := cb.points.foldl addPt cl.points }) b,
          pointTo := cb.points.foldl (fun m p => alSet m p a) st.pointTo }
        (E ++ [(s, t)]) := by
  obtain ⟨ca, hcaget, htin⟩ := inv.mem_of_pt t a ht
  have hsin : s ∈ cb.points := by
    obtain ⟨c', hc', hin⟩ := inv.mem_of_pt s b hs
    rw [hcbget] at hc'
    cases hc'
    exact hin
  have hmemb : ∀ x, x ∈ cb.points ↔ alGet st.pointTo x = some b := by
    intro x
    constructor
    · exact inv.pt_of_mem b cb hcbget x
    · intro hx
      obtain ⟨c', hc', hin⟩ := inv.mem_of_pt x b hx
      rw [hcbget] at hc'
      cases hc'
      exact hin
  have hptx : ∀ x, alGet (cb.points.foldl (fun m p => alSet m p a) st.pointTo) x =
      if x ∈ cb.points then some a else alGet st.pointTo x :=
    fun x => alGet_foldl_alSet cb.points st.pointTo a x
  have hmodkeys : ((alModify st.clusters a fun cl =>
      { cl with segments := cl.segments ++ cb.segments ++ [wid],
                points := cb.points.foldl addPt cl.points }).map Prod.fst).Nodup := by
    rw [alModify_map_fst]
    exact inv.nodup
  have hclA : alGet (alErase (alModify st.clusters a fun cl =>
      { cl with segments := cl.segments ++ cb.segments ++ [wid],
                points := cb.points.foldl addPt cl.points }) b) a =
      some { ca with segments := ca.segments ++ cb.segments ++ [wid],
                     points := cb.points.foldl addPt ca.points } := by
    rw [alGet_alErase_ne _ _ _ hab, alGet_alModify_self, hcaget]
    rfl
  have hclB : alGet (alErase (alModify st.clusters a fun cl =>
      { cl with segments := cl.segments ++ cb.segments ++ [wid],
                points := cb.points.foldl addPt cl.points }) b) b = none :=
    alGet_alErase_self _ _ hmodkeys
  have hclO : ∀ cid, cid ≠ a → cid ≠ b →
      alGet (alErase (alModify st.clusters a fun cl =>
        { cl with segments := cl.segments ++ cb.segments ++ [wid],
                  points := cb.points.foldl addPt cl.points }) b) cid =
      alGet st.clusters cid := by
    intro cid hcida hcidb
    rw [alGet_alErase_ne _ _ _ hcidb, alGet_alModify_ne _ _ _ _ hcida]
  have hmemfA : ∀ x : Point, x ∈ cb.points.foldl addPt ca.points ↔
      x ∈ ca.points ∨ x ∈ cb.points := fun x => mem_foldl_addPt
  -- connection of everything in the merged class to `t`
  have hedge : Conn (E ++ [(s, t)]) s t := conn_new_edge s t
  have hXa : ∀ z, alGet (cb.points.foldl (fun m p => alSet m p a) st.pointTo) z =
      some a → Conn (E ++ [(s, t)]) t z := by
    intro z hz
    rw [hptx] at hz
    by_cases hzb : z ∈ cb.points
    · have hzb' : alGet st.pointTo z = some b := (hmemb z).mp hzb
      have : Conn E s z := (inv.conn s z b hs).mp hzb'
      exact conn_trans (conn_symm hedge) (conn_append this)
    · rw [if_neg hzb] at hz
      exact conn_append ((inv.conn t z a ht).mp hz)
  have hYa : ∀ z, Conn (E ++ [(s, t)]) t z →
      alGet (cb.points.foldl (fun m p => alSet m p a) st.pointTo) z = some a := by
    intro z hz
    rw [hptx]
    rcases conn_append_decompose hz with h1 | ⟨h1, h2⟩ | ⟨h1, h2⟩
    · have hza : alGet st.pointTo z = some a := (inv.conn t z a ht).mpr h1
      have hzb : z ∉ cb.points := by
        intro hmem
        rw [(hmemb z).mp hmem] at hza
        cases hza
        exact hab rfl
      rw [if_neg hzb]
      exact hza
    · -- a path `t ⟶ s` inside `E` would put `s` in cluster `a`
      exfalso
      have := (inv.conn t s a ht).mpr h1
      rw [hs] at this
      cases this
      exact hab rfl
    · -- `t ⟶ t` and `s ⟶ z`: `z` was in cluster `b`
      have hzb : alGet st.pointTo z = some b := (inv.conn s z b hs).mpr h2
      rw [if_pos ((hmemb z).mpr hzb)]
  constructor
  · -- nodup
    simp only []
    exact hmodkeys.sublist (alErase_map_fst_sublist _ _)
  · -- lt
    intro cid hcid
    refine inv.lt cid ?_
    have := (alErase_map_fst_sublist (alModify st.clusters a fun cl =>
      { cl with segments := cl.segments ++ cb.segments ++ [wid],
                points := cb.points.foldl addPt cl.points }) b).mem hcid
    rw [alModify_map_fst] at this
    exact this
  · -- mem_of_pt
    intro p cid h
    simp only [] at h ⊢
    rw [hptx] at h
    by_cases hpb : p ∈ cb.points
    · rw [if_pos hpb] at h
      cases h
      refine ⟨_, hclA, ?_⟩
      simp only [hmemfA]
      exact Or.inr hpb
    · rw [if_neg hpb] at h
      have hcidb : cid ≠ b := by
        intro hcid
        rw [hcid] at h
        exact hpb ((hmemb p).mpr h)
      by_cases hcida : cid = a
      · rw [hcida] at h ⊢
        obtain ⟨c', hc', hin⟩ := inv.mem_of_pt p a h
        rw [hcaget] at hc'
        cases hc'
        refine ⟨_, hclA, ?_⟩
        simp only [hmemfA]
        exact Or.inl hin
      · obtain ⟨c', hc', hin⟩ := inv.mem_of_pt p cid h
        exact ⟨c', by rw [hclO cid hcida hcidb]; exact hc', hin⟩
  · -- pt_of_mem
    intro cid c' hc' p hp
    simp only [] at hc' ⊢
    rw [hptx]
    by_cases hcidb : cid = b
    · rw [hcidb, hclB] at hc'
      cases hc'
    · by_cases hcida : cid = a
      · rw [hcida] at hc' ⊢
        rw [hclA] at hc'
        cases hc'
        simp only [hmemfA] at hp
        by_cases hpb : p ∈ cb.points
        · rw [if_pos hpb]
        · rw [if_neg hpb]
          rcases hp with hp | hp
          · exact inv.pt_of_mem a ca hcaget p hp
          · exact absurd hp hpb
      · rw [hclO cid hcida hcidb] at hc'
        have hpc := inv.pt_of_mem cid c' hc' p hp
        have hpb : p ∉ cb.points := by
          intro hmem
          rw [(hmemb p).mp hmem] at hpc
          cases hpc
          exact hcidb rfl
        rw [if_neg hpb]
        exact hpc
  · -- nonempty
    intro cid c' hc'
    simp only [] at hc'
    by_cases hcidb : cid = b
    · rw [hcidb, hclB] at hc'
      cases hc'
    · by_cases hcida : cid = a
      · rw [hcida, hclA] at hc'
        cases hc'
        exact foldl_addPt_ne_nil (inv.nonempty a ca hcaget)
      · rw [hclO cid hcida hcidb] at hc'
        exact inv.nonempty cid c' hc'
  · -- dom
    intro p
    simp only []
    rw [hptx, touched_append_iff]
    by_cases hpb : p ∈ cb.points
    · rw [if_pos hpb]
      simp only [Option.isSome_some, true_iff]
      exact Or.inl (inv.touched ((hmemb p).mp hpb))
    · rw [if_neg hpb, inv.dom]
      constructor
      · exact Or.inl
      · rintro (h | rfl | rfl)
        · exact h
        · exact absurd hsin (by rw [hmemb]; intro hc; exact hpb ((hmemb p).mpr hc))
        · exact inv.touched ht
  · -- conn
    intro p q cid h
    simp only [] at h ⊢
    by_cases hcida : cid = a
    · rw [hcida] at h ⊢
      constructor
      · intro hq
        exact conn_trans (conn_symm (hXa p h)) (hXa q hq)
      · intro hconn
        exact hYa q (conn_trans (hXa p h) hconn)
    · have hp' : alGet st.pointTo p = some cid := by
        rw [hptx] at h
        by_cases hpb : p ∈ cb.points
        · rw [if_pos hpb] at h
          cases h
          exact absurd rfl hcida
        · rw [if_neg hpb] at h
          exact h
      have hpb : p ∉ cb.points := by
        intro hmem
        rw [(hmemb p).mp hmem] at hp'
        cases hp'
        rw [hptx, if_pos hmem] at h
        cases h
        exact hcida rfl
      have hcidb : cid ≠ b := by
        intro hcid
        rw [hcid] at hp'
        exact hpb ((hmemb p).mpr hp')
      constructor
      · intro hq
        have hq' : alGet st.pointTo q = some cid := by
          rw [hptx] at hq
          by_cases hqb : q ∈ cb.points
          · rw [if_pos hqb] at hq
            cases hq
            exact absurd rfl hcida
          · rw [if_neg hqb] at hq
            exact hq
        exact conn_append ((inv.conn p q cid hp').mp hq')
      · intro hconn
        rw [hptx]
        rcases conn_append_decompose hconn with h1 | ⟨h1, h2⟩ | ⟨h1, h2⟩
        · have hq := (inv.conn p q cid hp').mpr h1
          have hqb : q ∉ cb.points := by
            intro hmem
            rw [(hmemb q).mp hmem] at hq
            cases hq
            exact hcidb rfl
          rw [if_neg hqb]
          exact hq
        · -- `p ⟶ s` in `E` would force `cid = b`
          exfalso
          have := (inv.conn p s cid hp').mpr h1
          rw [hs] at this
          cases this
          exact hcidb rfl
        · -- `p ⟶ t` in `E` would force `cid = a`
          exfalso
          have := (inv.conn p t cid hp').mpr h1
          rw [ht] at this
          cases this
          exact hcida rfl

/-- The invariant is preserved by each iteration of the wire loop. -/
theorem inv_step {st : ClusterState} {E : List (Point × Point)}
    (inv : Inv st E) (wid : Nat) (w : ParseWire) :
    Inv (clusterStep st (wid, w)) (E ++ [(w.start, w.endp)]) := by
  rcases ht : alGet st.pointTo w.endp with _ | a <;>
    rcases hs : alGet st.pointTo w.start with _ | b
  · have h := inv_step_new inv wid w.start w.endp ht hs
    have hstep : clusterStep st (wid, w) =
        { nextId := st.nextId + 1,
          clusters := st.clusters ++
            [(st.nextId, ⟨[wid], addPt (addPt [] w.start) w.endp, [], [], []⟩)],
          pointTo := alSet (alSet st.pointTo w.start st.nextId) w.endp st.nextId } := by
      simp only [clusterStep, ht, hs]
    rw [hstep]
    exact h
  · have h := inv_step_grow inv wid w.start w.endp b (Or.inr ⟨ht, hs⟩)
    have hstep : clusterStep st (wid, w) =
        { st with
          pointTo := alSet (alSet st.pointTo w.start b) w.endp b,
          clusters := alModify st.clusters b fun cl =>
            { cl with segments := cl.segments ++ [wid],
                      points := addPt (addPt cl.points w.start) w.endp } } := by
      simp only [clusterStep, ht, hs]
    rw [hstep]
    exact h
  · have h := inv_step_grow inv wid w.start w.endp a (Or.inl ⟨ht, hs⟩)
    have hstep : clusterStep st (wid, w) =
        { st with
          pointTo := alSet (alSet st.pointTo w.start a) w.endp a,
          clusters := alModify st.clusters a fun cl =>
            { cl with segments := cl.segments ++ [wid],
                      points := addPt (addPt cl.points w.start) w.endp } } := by
      simp only [clusterStep, ht, hs]
    rw [hstep]
    exact h
  · by_cases hab : a = b
    · rw [hab] at ht
      have h := inv_step_same inv wid w.start w.endp b ht hs
      have hstep : clusterStep st (wid, w) =
          { st with clusters := alModify st.clusters b fun cl =>
              { cl with segments := cl.segments ++ [wid] } } := by
        simp [clusterStep, ht, hs, hab]
      rw [hstep]
      exact h
    · obtain ⟨cb, hcbget, _⟩ := inv.mem_of_pt w.start b hs
      have h := inv_step_merge inv wid w.start w.endp a b ht hs hab cb hcbget
      have hstep : clusterStep st (wid, w) =
          { st with
            clusters := alErase (alModify st.clusters a fun cl =>
                { cl with segments := cl.segments ++ cb.segments ++ [wid],
                          points := cb.points.foldl addPt cl.points }) b,
            pointTo := cb.points.foldl (fun m p => alSet m p a) st.pointTo } := by
        simp [clusterStep, ht, hs, hab, hcbget]
      rw [hstep]
      exact h

/-- Running the wire loop from an invariant state preserves the invariant,
accumulating the processed edges. -/
theorem inv_foldl (ws : List (Nat × ParseWire)) :
    ∀ {st : ClusterState} {E : List (Point × Point)}, Inv st E →
    Inv (ws.foldl clusterStep st) (E ++ wireEdges ws) := by
  induction ws with
  | nil =>
    intro st E inv
    simpa [wireEdges] using inv
  | cons w ws ih =>
    intro st E inv
    have h₁ : Inv (clusterStep st w) (E ++ [(w.2.start, w.2.endp)]) := by
      obtain ⟨wid, pw⟩ := w
      exact inv_step inv wid pw
    have h₂ := ih h₁
    simpa [wireEdges, List.append_assoc] using h₂

/-- The wire-segment phase establishes the invariant for the full edge
list. -/
theorem inv_runClusters (ws : List (Nat × ParseWire)) :
    Inv (runClusters ws) (wireEdges ws) := by
  have := inv_foldl ws inv_init
  simpa [runClusters] using this

/-! ### The pin phase only touches the role lists -/

/-- Projection of a cluster entry to the data the pin phase never
modifies. -/
def shapeCl (e : Nat × WireCluster) : Nat × List Nat × List Point :=
  (e.1, e.2.segments, e.2.points)

/-- Relation stating that `st'` agrees with `st` on everything except the role lists of the
clusters. -/
def StatePres (st st' : ClusterState) : Prop :=
  st'.nextId = st.nextId ∧ st'.pointTo = st.pointTo ∧
    st'.clusters.map shapeCl = st.clusters.map shapeCl

theorem statePres_refl (st : ClusterState) : StatePres st st := ⟨rfl, rfl, rfl⟩

theorem statePres_trans {st₁ st₂ st₃ : ClusterState}
    (h₁ : StatePres st₁ st₂) (h₂ : StatePres st₂ st₃) : StatePres st₁ st₃ :=
  ⟨h₂.1.trans h₁.1, h₂.2.1.trans h₁.2.1, h₂.2.2.trans h₁.2.2⟩

theorem alModify_shape (m : List (Nat × WireCluster)) (k : Nat)
    (f : WireCluster → WireCluster)
    (hf : ∀ v, (f v).segments = v.segments ∧ (f v).points = v.points) :
    (alModify m k f).map shapeCl = m.map shapeCl := by
  induction m with
  | nil => rfl
  | cons e t ih =>
    obtain ⟨k₀, v₀⟩ := e
    by_cases h₀ : k₀ = k
    · subst h₀
      simp [alModify, shapeCl, (hf v₀).1, (hf v₀).2]
    · simp [alModify, h₀, shapeCl, ih]

theorem attachPin_shape {st st' : ClusterState} {cid : Nat} {comp : TCComponent}
    {pinId : Nat} {pin : PinInfo}
    (h : attachPin st cid comp pinId pin = some st') : StatePres st st' := by
  rw [attachPin] at h
  rcases hget : alGet st.pointTo (pinGlobalPos comp pin) with _ | cl
  · rw [hget] at h
    cases h
    exact statePres_refl _
  · rw [hget] at h
    rcases hk : pin.kind with _ | _ | _ | _ | _ <;> rw [hk] at h <;> cases h
    all_goals exact ⟨rfl, rfl, alModify_shape _ _ _ (fun v => ⟨rfl, rfl⟩)⟩

theorem foldl_bind_none {σ α : Type}
    (f : Option σ → α → Option σ)
    (hf : ∀ a, f none a = none) (l : List α) : l.foldl f none = none := by
  induction l with
  | nil => rfl
  | cons a t ih => rw [List.foldl_cons, hf a]; exact ih

theorem attachPins_inner_shape {cid : Nat} {comp : TCComponent}
    (l : List (Nat × PinInfo)) :
    ∀ {st st' : ClusterState},
      l.foldl (fun acc2 pe => acc2.bind fun st2 => attachPin st2 cid comp pe.1 pe.2)
        (some st) = some st' → StatePres st st' := by
  induction l with
  | nil =>
    intro st st' h
    cases h
    exact statePres_refl _
  | cons pe t ih =>
    intro st st' h
    rw [List.foldl_cons] at h
    rcases h₁ : attachPin st cid comp pe.1 pe.2 with _ | st₁
    · rw [show (some st).bind (fun st2 => attachPin st2 cid comp pe.1 pe.2) = none by
          simp [h₁]] at h
      rw [foldl_bind_none _ (fun a => rfl) t] at h
      cases h
    · rw [show (some st).bind (fun st2 => attachPin st2 cid comp pe.1 pe.2) = some st₁ by
          simp [h₁]] at h
      exact statePres_trans (attachPin_shape h₁) (ih h)

theorem attachPins_shape (comps : List (Nat × TCComponent)) :
    ∀ {st st' : ClusterState}, attachPins comps st = some st' → StatePres st st' := by
  induction comps with
  | nil =>
    intro st st' h
    cases h
    exact statePres_refl _
  | cons e t ih =>
    intro st st' h
    rw [attachPins, List.foldl_cons] at h
    rcases h₁ : e.2.info.pins.enum.foldl
        (fun acc2 pe => acc2.bind fun st2 => attachPin st2 e.1 e.2 pe.1 pe.2)
        (some st) with _ | st₁
    · rw [show (some st).bind (fun st2 => e.2.info.pins.enum.foldl
          (fun acc2 pe => acc2.bind fun st3 => attachPin st3 e.1 e.2 pe.1 pe.2)
          (some st2)) = none from by simpa using h₁] at h
      rw [foldl_bind_none _ (fun a => rfl) t] at h
      cases h
    · rw [show (some st).bind (fun st2 => e.2.info.pins.enum.foldl
          (fun acc2 pe => acc2.bind fun st3 => attachPin st3 e.1 e.2 pe.1 pe.2)
          (some st2)) = some st₁ from by simpa using h₁] at h
      exact statePres_trans (attachPins_inner_shape _ h₁) (ih h)

theorem shape_alGet {m m' : List (Nat × WireCluster)}
    (h : m'.map shapeCl = m.map shapeCl) (cid : Nat) :
    (alGet m' cid).map (fun c => (c.segments, c.points)) =
      (alGet m cid).map (fun c => (c.segments, c.points)) := by
  induction m generalizing m' with
  | nil =>
    simp only [List.map_nil, List.map_eq_nil_iff] at h
    subst h
    rfl
  | cons e t ih =>
    cases m' with
    | nil => simp at h
    | cons e' t' =>
      obtain ⟨k₀, v₀⟩ := e
      obtain ⟨k₁, v₁⟩ := e'
      simp only [List.map_cons, List.cons.injEq, shapeCl, Prod.mk.injEq] at h
      obtain ⟨⟨hk, hse, hpt⟩, htl⟩ := h
      by_cases hc : k₀ = cid
      · subst hc
        simp [alGet, hk, hse, hpt]
      · rw [show alGet ((k₁, v₁) :: t') cid = alGet t' cid from by
              simp [alGet, hk ▸ hc],
            show alGet ((k₀, v₀) :: t) cid = alGet t cid from by simp [alGet, hc]]
        exact ih htl

theorem shape_keys {m m' : List (Nat × WireCluster)}
    (h : m'.map shapeCl = m.map shapeCl) :
    m'.map Prod.fst = m.map Prod.fst := by
  have h₁ : (m'.map shapeCl).map Prod.fst = (m.map shapeCl).map Prod.fst := by
    rw [h]
  simpa [shapeCl, Function.comp] using h₁

/-- Transport of the cluster invariant across the pin phase. -/
theorem inv_of_pres {st st' : ClusterState} {E : List (Point × Point)}
    (inv : Inv st E) (hp : StatePres st st') : Inv st' E := by
  obtain ⟨hnext, hpt, hcl⟩ := hp
  have hkeys := shape_keys hcl
  constructor
  · rw [hkeys]; exact inv.nodup
  · intro cid hcid
    rw [hkeys] at hcid
    rw [hnext]
    exact inv.lt cid hcid
  · intro p cid h
    rw [hpt] at h
    obtain ⟨c, hc, hpc⟩ := inv.mem_of_pt p cid h
    have hshape := shape_alGet hcl cid
    rw [hc] at hshape
    rcases hget : alGet st'.clusters cid with _ | c'
    · rw [hget] at hshape; cases hshape
    · rw [hget] at hshape
      simp only [Option.map_some', Option.some.injEq, Prod.mk.injEq] at hshape
      refine ⟨c', rfl, ?_⟩
      rw [hshape.2]
      exact hpc
  · intro cid c' hc' p hpc
    rw [hpt]
    have hshape := shape_alGet hcl cid
    rw [hc'] at hshape
    rcases hget : alGet st.clusters cid with _ | c
    · rw [hget] at hshape; cases hshape
    · rw [hget] at hshape
      simp only [Option.map_some', Option.some.injEq, Prod.mk.injEq] at hshape
      exact inv.pt_of_mem cid c hget p (hshape.2 ▸ hpc)
  · intro cid c' hc'
    have hshape := shape_alGet hcl cid
    rw [hc'] at hshape
    rcases hget : alGet st.clusters cid with _ | c
    · rw [hget] at hshape; cases hshape
    · rw [hget] at hshape
      simp only [Option.map_some', Option.some.injEq, Prod.mk.injEq] at hshape
      rw [hshape.2]
      exact inv.nonempty cid c hget
  · intro p
    rw [hpt]
    exact inv.dom p
  · intro p q cid h
    rw [hpt] at h ⊢
    exact inv.conn p q cid h

/-- The state returned by the full `clusters` computation satisfies the
invariant. -/
theorem clusters_inv {wires : List (Nat × ParseWire)}
    {comps : List (Nat × TCComponent)} {st' : ClusterState}
    (h : clusters wires comps = some st') : Inv st' (wireEdges wires) :=
  inv_of_pres (inv_runClusters wires) (attachPins_shape comps h)

/-! ### The partition of points into nets -/

/-- The partition computed by clustering: each surviving Net identified by
its member-point set. -/
def netPoints (st : ClusterState) : Set (Finset Point) :=
  { s | ∃ cid c, (cid, c) ∈ st.clusters ∧ s = c.points.toFinset }

/-- The connectivity components of an edge list, as point sets. -/
def connComponents (E : List (Point × Point)) : Set (Finset Point) :=
  { s | ∃ p, Touched E p ∧ ∀ q, q ∈ s ↔ Conn E p q }

theorem netPoints_eq_connComponents {st : ClusterState}
    {E : List (Point × Point)} (inv : Inv st E) :
    netPoints st = connComponents E := by
  ext s
  constructor
  · rintro ⟨cid, c, hmem, rfl⟩
    have hget : alGet st.clusters cid = some c :=
      mem_alGet_of_nodup _ _ _ inv.nodup hmem
    obtain ⟨p, hp⟩ := List.exists_mem_of_ne_nil _ (inv.nonempty cid c hget)
    have hpt : alGet st.pointTo p = some cid := inv.pt_of_mem cid c hget p hp
    refine ⟨p, inv.touched hpt, ?_⟩
    intro q
    rw [List.mem_toFinset]
    constructor
    · intro hq
      exact (inv.conn p q cid hpt).mp (inv.pt_of_mem cid c hget q hq)
    · intro hq
      have hqt := (inv.conn p q cid hpt).mpr hq
      obtain ⟨c', hc', hq'⟩ := inv.mem_of_pt q cid hqt
      rw [hget] at hc'
      cases hc'
      exact hq'
  · rintro ⟨p, hT, hchar⟩
    have hsome : (alGet st.pointTo p).isSome := (inv.dom p).mpr hT
    rcases hp : alGet st.pointTo p with _ | cid
    · rw [hp] at hsome; cases hsome
    · obtain ⟨c, hc, hpc⟩ := inv.mem_of_pt p cid hp
      refine ⟨cid, c, alGet_mem _ _ _ hc, ?_⟩
      ext q
      rw [hchar q, List.mem_toFinset]
      constructor
      · intro hq
        have hqt := (inv.conn p q cid hp).mpr hq
        obtain ⟨c', hc', hq'⟩ := inv.mem_of_pt q cid hqt
        rw [hc] at hc'
        cases hc'
        exact hq'
      · intro hq
        exact (inv.conn p q cid hp).mp (inv.pt_of_mem cid c hc q hq)

theorem connComponents_congr {E₁ E₂ : List (Point × Point)}
    (h : ∀ e, e ∈ E₁ ↔ e ∈ E₂) : connComponents E₁ = connComponents E₂ := by
  ext s
  constructor
  · rintro ⟨p, hT, hchar⟩
    refine ⟨p, touched_mono (fun e he => (h e).mp he) hT, ?_⟩
    intro q
    rw [hchar q]
    constructor
    · exact conn_mono fun e he => (h e).mp he
    · exact conn_mono fun e he => (h e).mpr he
  · rintro ⟨p, hT, hchar⟩
    refine ⟨p, touched_mono (fun e he => (h e).mpr he) hT, ?_⟩
    intro q
    rw [hchar q]
    constructor
    · exact conn_mono fun e he => (h e).mpr he
    · exact conn_mono fun e he => (h e).mp he

/-- C1. For every fixed component set, and for any permutation of the
order in which wire segments are processed, the clustering result induces
the same partition of grid points into Nets (each Net identified by its
member-point set). -/
theorem C1_net_clustering_order_independent
    (w₁ w₂ : List (Nat × ParseWire)) (comps : List (Nat × TCComponent))
    (st₁ st₂ : ClusterState) (hperm : w₁.Perm w₂)
    (h₁ : clusters w₁ comps = some st₁) (h₂ : clusters w₂ comps = some st₂) :
    netPoints st₁ = netPoints st₂ := by
  rw [netPoints_eq_connComponents (clusters_inv h₁),
      netPoints_eq_connComponents (clusters_inv h₂)]
  exact connComponents_congr fun e => (hperm.map fun w => (w.2.start, w.2.endp)).mem_iff

theorem C1_net_clustering_order_independent_witness :
    netPoints (runClusters
      [(0, ⟨⟨0, 0⟩, ⟨1, 0⟩⟩), (1, ⟨⟨2, 0⟩, ⟨3, 0⟩⟩), (2, ⟨⟨1, 0⟩, ⟨2, 0⟩⟩)]) =
    netPoints (runClusters
      [(2, ⟨⟨1, 0⟩, ⟨2, 0⟩⟩), (1, ⟨⟨2, 0⟩, ⟨3, 0⟩⟩), (0, ⟨⟨0, 0⟩, ⟨1, 0⟩⟩)]) :=
  C1_net_clustering_order_independent
    [(0, ⟨⟨0, 0⟩, ⟨1, 0⟩⟩), (1, ⟨⟨2, 0⟩, ⟨3, 0⟩⟩), (2, ⟨⟨1, 0⟩, ⟨2, 0⟩⟩)]
    [(2, ⟨⟨1, 0⟩, ⟨2, 0⟩⟩), (1, ⟨⟨2, 0⟩, ⟨3, 0⟩⟩), (0, ⟨⟨0, 0⟩, ⟨1, 0⟩⟩)]
    [] _ _ (by decide) rfl rfl

/-- C4. After clustering, every grid point belongs to at most one Net:
the point-to-Net mapping sends each point to a surviving Net containing
it (and conversely each member point of a surviving Net maps back to it,
so the assignment is unique), the member-point sets of distinct surviving
Nets are disjoint, and in the merge arm of the wire loop the surviving
cluster receives the union of both segment lists and point sets while the
other cluster is removed from the collection. -/
theorem C4_point_to_net_unique (wires : List (Nat × ParseWire))
    (comps : List (Nat × TCComponent)) (st' : ClusterState)
    (h : clusters wires comps = some st') :
    (∀ p cid, alGet st'.pointTo p = some cid →
        ∃ c, alGet st'.clusters cid = some c ∧ p ∈ c.points) ∧
    (∀ cid c, alGet st'.clusters cid = some c → ∀ p ∈ c.points,
        alGet st'.pointTo p = some cid) ∧
    (∀ cid₁ c₁ cid₂ c₂, (cid₁, c₁) ∈ st'.clusters → (cid₂, c₂) ∈ st'.clusters →
        cid₁ ≠ cid₂ → ∀ p ∈ c₁.points, p ∉ c₂.points) ∧
    (∀ (ws : List (Nat × ParseWire)) (wid : Nat) (w : ParseWire) (a b : Nat)
        (cb : WireCluster),
        alGet (runClusters ws).pointTo w.endp = some a →
        alGet (runClusters ws).pointTo w.start = some b → a ≠ b →
        alGet (runClusters ws).clusters b = some cb →
        ∃ ca, alGet (runClusters ws).clusters a = some ca ∧
          (∀ st₂, st₂ = clusterStep (runClusters ws) (wid, w) →
            alGet st₂.clusters b = none ∧
            alGet st₂.clusters a = some
              { ca with segments := ca.segments ++ cb.segments ++ [wid],
                        points := cb.points.foldl addPt ca.points } ∧
            (∀ x, x ∈ cb.points.foldl addPt ca.points ↔
              x ∈ ca.points ∨ x ∈ cb.points))) := by
  have inv := clusters_inv h
  refine ⟨inv.mem_of_pt, inv.pt_of_mem, ?_, ?_⟩
  · intro cid₁ c₁ cid₂ c₂ h₁ h₂ hne p hp₁ hp₂
    have hg₁ : alGet st'.clusters cid₁ = some c₁ :=
      mem_alGet_of_nodup _ _ _ inv.nodup h₁
    have hg₂ : alGet st'.clusters cid₂ = some c₂ :=
      mem_alGet_of_nodup _ _ _ inv.nodup h₂
    have e₁ := inv.pt_of_mem cid₁ c₁ hg₁ p hp₁
    have e₂ := inv.pt_of_mem cid₂ c₂ hg₂ p hp₂
    rw [e₁] at e₂
    cases e₂
    exact hne rfl
  · intro ws wid w a b cb ht hs hab hcbget
    have invw := inv_runClusters ws
    obtain ⟨ca, hcaget, _⟩ := invw.mem_of_pt w.endp a ht
    refine ⟨ca, hcaget, ?_⟩
    intro st₂ hst₂
    have hstep : clusterStep (runClusters ws) (wid, w) =
        { runClusters ws with
          clusters := alErase (alModify (runClusters ws).clusters a fun cl =>
              { cl with segments := cl.segments ++ cb.segments ++ [wid],
                        points := cb.points.foldl addPt cl.points }) b,
          pointTo := cb.points.foldl (fun m p => alSet m p a)
            (runClusters ws).pointTo } := by
      simp [clusterStep, ht, hs, hab, hcbget]
    rw [hst₂, hstep]
    have hmodkeys : ((alModify (runClusters ws).clusters a fun cl =>
        { cl with segments := cl.segments ++ cb.segments ++ [wid],
                  points := cb.points.foldl addPt cl.points }).map Prod.fst).Nodup := by
      rw [alModify_map_fst]
      exact invw.nodup
    refine ⟨alGet_alErase_self _ _ hmodkeys, ?_, fun x => mem_foldl_addPt⟩
    rw [alGet_alErase_ne _ _ _ hab, alGet_alModify_self, hcaget]
    rfl

theorem C4_point_to_net_unique_witness :
    (∀ p cid, alGet (runClusters [(0, ⟨⟨0, 0⟩, ⟨1, 0⟩⟩)]).pointTo p = some cid →
        ∃ c, alGet (runClusters [(0, ⟨⟨0, 0⟩, ⟨1, 0⟩⟩)]).clusters cid = some c ∧
          p ∈ c.points) ∧
    (∀ cid c, alGet (runClusters [(0, ⟨⟨0, 0⟩, ⟨1, 0⟩⟩)]).clusters cid = some c →
        ∀ p ∈ c.points,
        alGet (runClusters [(0, ⟨⟨0, 0⟩, ⟨1, 0⟩⟩)]).pointTo p = some cid) ∧
    (∀ cid₁ c₁ cid₂ c₂,
        (cid₁, c₁) ∈ (runClusters [(0, ⟨⟨0, 0⟩, ⟨1, 0⟩⟩)]).clusters →
        (cid₂, c₂) ∈ (runClusters [(0, ⟨⟨0, 0⟩, ⟨1, 0⟩⟩)]).clusters →
        cid₁ ≠ cid₂ → ∀ p ∈ c₁.points, p ∉ c₂.points) ∧
    (∀ (ws : List (Nat × ParseWire)) (wid : Nat) (w : ParseWire) (a b : Nat)
        (cb : WireCluster),
        alGet (runClusters ws).pointTo w.endp = some a →
        alGet (runClusters ws).pointTo w.start = some b → a ≠ b →
        alGet (runClusters ws).clusters b = some cb →
        ∃ ca, alGet (runClusters ws).clusters a = some ca ∧
          (∀ st₂, st₂ = clusterStep (runClusters ws) (wid, w) →
            alGet st₂.clusters b = none ∧
            alGet st₂.clusters a = some
              { ca with segments := ca.segments ++ cb.segments ++ [wid],
                        points := cb.points.foldl addPt ca.points } ∧
            (∀ x, x ∈ cb.points.foldl addPt ca.points ↔
              x ∈ ca.points ∨ x ∈ cb.points))) :=
  C4_point_to_net_unique [(0, ⟨⟨0, 0⟩, ⟨1, 0⟩⟩)] [] _ rfl

/-! ### Topological dispatch (`TCCompiler._compile_all`)

`graphlib.TopologicalSorter(graph).static_order()` consumes a mapping
from node to its set of predecessors, raises `CycleError` from `prepare`
(before yielding anything) when the graph is cyclic, and otherwise yields
every node exactly once with all predecessors of a node before it.  The
embedding `topoSort` implements the same contract by Kahn's algorithm on
an association list `node ↦ predecessor list`. -/

/-- Predecessor list of a node (nodes never mentioned as keys have no
predecessors). -/
def predsOf (g : List (Nat × List Nat)) (n : Nat) : List Nat :=
  (alGet g n).getD []

/-- Every node mentioned by the graph (keys and predecessors). -/
def gNodes (g : List (Nat × List Nat)) : List Nat :=
  (g.map Prod.fst ++ g.foldr (fun (e : Nat × List Nat) acc => e.2 ++ acc) []).dedup

/-- A node is ready when all of its predecessors are already emitted. -/
def isReady (g : List (Nat × List Nat)) (done : List Nat) (n : Nat) : Bool :=
  (predsOf g n).all fun p => done.contains p

/-- Kahn's algorithm: emit all ready nodes, repeat; fail when no node is
ready but nodes remain (a cycle). -/
def kahnRun (g : List (Nat × List Nat)) :
    Nat → List Nat → List Nat → Option (List Nat)
  | _, done, [] => some done
  | 0, _, _ :: _ => none
  | fuel + 1, done, r :: rs =>
    if (r :: rs).filter (isReady g done) = [] then none
    else kahnRun g fuel (done ++ (r :: rs).filter (isReady g done))
      ((r :: rs).filter fun n => !(isReady g done n))

/-- Topological order of the dependency graph, or `none` on a cycle
(`graphlib.TopologicalSorter(...).static_order()`). -/
def topoSort (g : List (Nat × List Nat)) : Option (List Nat) :=
  kahnRun g (gNodes g).length [] (gNodes g)

theorem kahnRun_perm (g : List (Nat × List Nat)) :
    ∀ (fuel : Nat) (done remaining order : List Nat),
      kahnRun g fuel done remaining = some order →
      order.Perm (done ++ remaining) := by
  intro fuel
  induction fuel with
  | zero =>
    intro done remaining order h
    cases remaining with
    | nil =>
      simp only [kahnRun] at h
      cases h
      simp
    | cons r rs => simp [kahnRun] at h
  | succ fuel ih =>
    intro done remaining order h
    cases remaining with
    | nil =>
      simp only [kahnRun] at h
      cases h
      simp
    | cons r rs =>
      rw [kahnRun] at h
      by_cases hr : (r :: rs).filter (isReady g done) = []
      · rw [if_pos hr] at h
        cases h
      · rw [if_neg hr] at h
        have hperm := ih _ _ _ h
        have hsplit : ((r :: rs).filter (isReady g done) ++
            (r :: rs).filter (fun n => !(isReady g done n))).Perm (r :: rs) :=
          List.filter_append_perm _ _
        refine hperm.trans ?_
        rw [List.append_assoc]
        exact List.Perm.append_left done hsplit

/-- A list respects the graph's edges when every element's predecessors
occur strictly earlier. -/
def RespOrder (g : List (Nat × List Nat)) (l : List Nat) : Prop :=
  ∀ l₁ n l₂, l = l₁ ++ n :: l₂ → ∀ p ∈ predsOf g n, p ∈ l₁

theorem respOrder_nil (g : List (Nat × List Nat)) : RespOrder g [] := by
  intro l₁ n l₂ h
  exact absurd h (by simp)

theorem respOrder_append {g : List (Nat × List Nat)} {done ready : List Nat}
    (hd : RespOrder g done)
    (hr : ∀ n ∈ ready, ∀ p ∈ predsOf g n, p ∈ done) :
    RespOrder g (done ++ ready) := by
  intro l₁ n l₂ heq p hp
  rcases List.append_eq_append_iff.mp heq with ⟨a, ha₁, ha₂⟩ | ⟨c, hc₁, hc₂⟩
  · -- the split point is inside `ready`
    have hn : n ∈ ready := by
      rw [ha₂]
      exact List.mem_append_right _ (List.mem_cons_self _ _)
    rw [ha₁]
    exact List.mem_append_left _ (hr n hn p hp)
  · cases c with
    | nil =>
      have hn : n ∈ ready := by
        have : n :: l₂ = ready := by simpa using hc₂
        rw [← this]
        exact List.mem_cons_self _ _
      have : done = l₁ := by simpa using hc₁
      rw [← this]
      exact hr n hn p hp
    | cons x c' =>
      -- `n :: l₂ = (x :: c') ++ ready` forces `x = n`
      have hc₂' : n = x ∧ l₂ = c' ++ ready := by
        have := hc₂
        simp only [List.cons_append, List.cons.injEq] at this
        exact this
      obtain ⟨rfl, -⟩ := hc₂'
      exact hd l₁ n c' (by simpa using hc₁) p hp

theorem kahnRun_resp (g : List (Nat × List Nat)) :
    ∀ (fuel : Nat) (done remaining order : List Nat),
      kahnRun g fuel done remaining = some order →
      RespOrder g done → RespOrder g order := by
  intro fuel
  induction fuel with
  | zero =>
    intro done remaining order h hd
    cases remaining with
    | nil =>
      simp only [kahnRun] at h
      cases h
      exact hd
    | cons r rs => simp [kahnRun] at h
  | succ fuel ih =>
    intro done remaining order h hd
    cases remaining with
    | nil =>
      simp only [kahnRun] at h
      cases h
      exact hd
    | cons r rs =>
      rw [kahnRun] at h
      by_cases hr : (r :: rs).filter (isReady g done) = []
      · rw [if_pos hr] at h
        cases h
      · rw [if_neg hr] at h
        refine ih _ _ _ h (respOrder_append hd ?_)
        intro n hn p hp
        have hready : isReady g done n = true := (List.mem_filter.mp hn).2
        rw [isReady, List.all_eq_true] at hready
        have := hready p hp
        simpa using this

theorem topoSort_perm {g : List (Nat × List Nat)} {order : List Nat}
    (h : topoSort g = some order) : order.Perm (gNodes g) := by
  have := kahnRun_perm g _ _ _ _ h
  simpa using this

theorem topoSort_nodup {g : List (Nat × List Nat)} {order : List Nat}
    (h : topoSort g = some order) : order.Nodup :=
  (topoSort_perm h).nodup_iff.mpr (List.nodup_dedup _)

theorem topoSort_resp {g : List (Nat × List Nat)} {order : List Nat}
    (h : topoSort g = some order) : RespOrder g order :=
  kahnRun_resp g _ _ _ _ h (respOrder_nil g)

theorem respOrder_indexOf {g : List (Nat × List Nat)} {l : List Nat}
    (hres : RespOrder g l) (hnd : l.Nodup) :
    ∀ n ∈ l, ∀ p ∈ predsOf g n, l.indexOf p < l.indexOf n := by
  intro n hn p hp
  obtain ⟨l₁, l₂, rfl⟩ := List.append_of_mem hn
  have hpl : p ∈ l₁ := hres l₁ n l₂ rfl p hp
  have hnl : n ∉ l₁ := by
    rw [List.nodup_append] at hnd
    intro hmem
    exact hnd.2.2 hmem (List.mem_cons_self _ _)
  rw [List.indexOf_append_of_mem hpl]
  have h₂ : (l₁ ++ n :: l₂).indexOf n = l₁.length + (n :: l₂).indexOf n := by
    rw [List.indexOf_append_of_not_mem hnl]
  rw [h₂]
  have : (n :: l₂).indexOf n = 0 := by simp
  rw [this]
  simpa using List.indexOf_lt_length.mpr hpl

/-- Relation: `p` is a dependency-graph predecessor of `n`. -/
def edgeRel (g : List (Nat × List Nat)) (p n : Nat) : Prop :=
  p ∈ predsOf g n

/-- The dependency graph has a cycle. -/
def hasCycle (g : List (Nat × List Nat)) : Prop :=
  ∃ n, Relation.TransGen (edgeRel g) n n

theorem mem_gNodes_of_edge {g : List (Nat × List Nat)} {p n : Nat}
    (h : edgeRel g p n) : p ∈ gNodes g ∧ n ∈ gNodes g := by
  rw [edgeRel, predsOf] at h
  rcases hget : alGet g n with _ | ps
  · rw [hget] at h
    simp at h
  · rw [hget] at h
    simp only [Option.getD_some] at h
    constructor
    · rw [gNodes, List.mem_dedup]
      refine List.mem_append_right _ ?_
      have hmem := alGet_mem g n ps hget
      clear hget
      induction g with
      | nil => simp at hmem
      | cons e t ih =>
        rcases List.mem_cons.mp hmem with rfl | hmem'
        · exact List.mem_append_left _ h
        · exact List.mem_append_right _ (ih hmem')
    · rw [gNodes, List.mem_dedup]
      exact List.mem_append_left _
        ((alGet_isSome_iff g n).mp (by rw [hget]; rfl))

theorem topoSort_edge_indexOf {g : List (Nat × List Nat)} {order : List Nat}
    (h : topoSort g = some order) {p n : Nat} (he : edgeRel g p n) :
    order.indexOf p < order.indexOf n := by
  have hmem := mem_gNodes_of_edge he
  have hperm := topoSort_perm h
  exact respOrder_indexOf (topoSort_resp h) (topoSort_nodup h) n
    (hperm.mem_iff.mpr hmem.2) p he

theorem topoSort_acyclic {g : List (Nat × List Nat)} {order : List Nat}
    (h : topoSort g = some order) : ¬ hasCycle g := by
  rintro ⟨n, hcyc⟩
  have hmono : ∀ x y, Relation.TransGen (edgeRel g) x y →
      order.indexOf x < order.indexOf y := by
    intro x y hxy
    induction hxy with
    | single he => exact topoSort_edge_indexOf h he
    | tail _ he ih => exact lt_trans ih (topoSort_edge_indexOf h he)
  exact lt_irrefl _ (hmono n n hcyc)

/-! ### Dependency graph construction (`TCCircuit.dependency_graph`) -/

/-- Python `set.add` on component-id sets. -/
def addId (l : List Nat) (n : Nat) : List Nat :=
  if n ∈ l then l else l ++ [n]

/-- Python `set.update` (`graph[tgt].update(srcs)`). -/
def setUnion (dst srcs : List Nat) : List Nat :=
  srcs.foldl addId dst

theorem mem_addId {l : List Nat} {n q : Nat} :
    q ∈ addId l n ↔ q ∈ l ∨ q = n := by
  by_cases h : n ∈ l
  · simp only [addId, if_pos h]
    constructor
    · exact Or.inl
    · rintro (hq | rfl)
      · exact hq
      · exact h
  · simp [addId, if_neg h]

theorem mem_setUnion {dst srcs : List Nat} {q : Nat} :
    q ∈ setUnion dst srcs ↔ q ∈ dst ∨ q ∈ srcs := by
  rw [setUnion]
  induction srcs generalizing dst with
  | nil => simp
  | cons s t ih =>
    simp only [List.foldl_cons, ih, mem_addId, List.mem_cons]
    tauto

/-- One target update of the dependency-graph loop
(`self._dependency_graph[tgt].update(srcs)`; a missing key is a
`KeyError`). -/
def tgtStep (srcs : List Nat) (acc : Option (List (Nat × List Nat)))
    (tp : Nat × Nat) : Option (List (Nat × List Nat)) :=
  acc.bind fun g =>
    if (alGet g tp.1).isSome then
      some (alModify g tp.1 fun ps => setUnion ps srcs)
    else none

/-- Processing of one cluster by `TCCircuit.dependency_graph`: the
`assert not cluster.bidis` guard, then one update per target pin. -/
def depGraphStep (g : List (Nat × List Nat)) (cl : WireCluster) :
    Option (List (Nat × List Nat)) :=
  if cl.bidis = [] then
    cl.targets.foldl (tgtStep ((cl.sources.map Prod.fst).dedup)) (some g)
  else none

/-- The `TCCircuit.dependency_graph` property: start from
`{i: set() for i in self.components}` and fold over the clusters. -/
def dependency_graph (comps : List (Nat × TCComponent))
    (cls : List WireCluster) : Option (List (Nat × List Nat)) :=
  cls.foldl (fun acc cl => acc.bind fun g => depGraphStep g cl)
    (some (comps.map fun e => (e.1, ([] : List Nat))))

theorem targetsFold_some_char (srcs : List Nat) (tl : List (Nat × Nat)) :
    ∀ g g' : List (Nat × List Nat), tl.foldl (tgtStep srcs) (some g) = some g' →
      g'.map Prod.fst = g.map Prod.fst ∧
      ∀ cid ps', alGet g' cid = some ps' → ∃ ps, alGet g cid = some ps ∧
        ∀ s, s ∈ ps' ↔ s ∈ ps ∨ (s ∈ srcs ∧ ∃ j, (cid, j) ∈ tl) := by
  induction tl with
  | nil =>
    intro g g' h
    cases h
    refine ⟨rfl, ?_⟩
    intro cid ps' hget
    exact ⟨ps', hget, by simp⟩
  | cons tp tl ih =>
    intro g g' h
    rw [List.foldl_cons] at h
    rcases h₁ : tgtStep srcs (some g) tp with _ | g₁
    · rw [h₁, foldl_bind_none _ (fun a => rfl) tl] at h
      cases h
    · rw [h₁] at h
      rw [tgtStep, Option.some_bind] at h₁
      by_cases hkey : (alGet g tp.1).isSome
      · rw [if_pos hkey] at h₁
        cases h₁
        obtain ⟨hkeys, hchar⟩ := ih _ _ h
        rw [alModify_map_fst] at hkeys
        refine ⟨hkeys, ?_⟩
        intro cid ps' hget
        obtain ⟨ps₁, hps₁, hmem₁⟩ := hchar cid ps' hget
        by_cases hc : cid = tp.1
        · rw [hc] at hps₁ hget hmem₁ ⊢
          rw [alGet_alModify_self] at hps₁
          rcases h₀ : alGet g tp.1 with _ | ps₀
          · rw [h₀] at hps₁; cases hps₁
          · rw [h₀] at hps₁
            simp only [Option.map_some', Option.some.injEq] at hps₁
            refine ⟨ps₀, rfl, ?_⟩
            intro s
            rw [hmem₁ s, ← hps₁, mem_setUnion]
            constructor
            · rintro ((hs | hs) | ⟨hs, j, hj⟩)
              · exact Or.inl hs
              · exact Or.inr ⟨hs, tp.2, by simp⟩
              · exact Or.inr ⟨hs, j, List.mem_cons_of_mem _ hj⟩
            · rintro (hs | ⟨hs, j, hj⟩)
              · exact Or.inl (Or.inl hs)
              · exact Or.inl (Or.inr hs)
        · rw [alGet_alModify_ne _ _ _ _ hc] at hps₁
          refine ⟨ps₁, hps₁, ?_⟩
          intro s
          rw [hmem₁ s]
          constructor
          · rintro (hs | ⟨hs, j, hj⟩)
            · exact Or.inl hs
            · exact Or.inr ⟨hs, j, List.mem_cons_of_mem _ hj⟩
          · rintro (hs | ⟨hs, j, hj⟩)
            · exact Or.inl hs
            · rcases List.mem_cons.mp hj with heq | hj'
              · exfalso
                apply hc
                have : (cid, j).1 = tp.1 := by rw [heq]
                exact this
              · exact Or.inr ⟨hs, j, hj'⟩
      · rw [if_neg hkey] at h₁
        cases h₁

theorem mem_alModify {κ β : Type} [DecidableEq κ] {m : List (κ × β)} {k : κ}
    {f : β → β} {x : κ × β} (h : x ∈ alModify m k f) :
    x ∈ m ∨ ∃ y ∈ m, x = (y.1, f y.2) := by
  induction m with
  | nil => simp [alModify] at h
  | cons e t ih =>
    obtain ⟨k₀, v₀⟩ := e
    by_cases h₀ : k₀ = k
    · subst h₀
      rw [show alModify ((k₀, v₀) :: t) k₀ f = (k₀, f v₀) :: t from by
        simp [alModify]] at h
      rcases List.mem_cons.mp h with rfl | h
      · exact Or.inr ⟨(k₀, v₀), List.mem_cons_self _ _, rfl⟩
      · exact Or.inl (List.mem_cons_of_mem _ h)
    · rw [show alModify ((k₀, v₀) :: t) k f = (k₀, v₀) :: alModify t k f from by
        simp [alModify, h₀]] at h
      rcases List.mem_cons.mp h with rfl | h
      · exact Or.inl (List.mem_cons_self _ _)
      · rcases ih h with h | ⟨y, hy, hxy⟩
        · exact Or.inl (List.mem_cons_of_mem _ h)
        · exact Or.inr ⟨y, List.mem_cons_of_mem _ hy, hxy⟩

theorem mem_alErase {κ β : Type} [DecidableEq κ] {m : List (κ × β)} {k : κ}
    {x : κ × β} (h : x ∈ alErase m k) : x ∈ m := by
  induction m with
  | nil => simp [alErase] at h
  | cons e t ih =>
    obtain ⟨k₀, v₀⟩ := e
    by_cases h₀ : k₀ = k
    · subst h₀
      rw [show alErase ((k₀, v₀) :: t) k₀ = t from by simp [alErase]] at h
      exact List.mem_cons_of_mem _ h
    · rw [show alErase ((k₀, v₀) :: t) k = (k₀, v₀) :: alErase t k from by
        simp [alErase, h₀]] at h
      rcases List.mem_cons.mp h with rfl | h
      · exact List.mem_cons_self _ _
      · exact List.mem_cons_of_mem _ (ih h)

/-- After the wire phase, every cluster's role lists are still empty
(pins are only attached in the second phase). -/
def RolesEmpty (st : ClusterState) : Prop :=
  ∀ e ∈ st.clusters, e.2.sources = [] ∧ e.2.targets = [] ∧ e.2.bidis = []

theorem rolesEmpty_step {st : ClusterState} (hre : RolesEmpty st)
    (w : Nat × ParseWire) : RolesEmpty (clusterStep st w) := by
  intro e he
  rw [clusterStep] at he
  rcases ht : alGet st.pointTo w.2.endp with _ | a <;>
    rcases hs : alGet st.pointTo w.2.start with _ | b <;>
    simp only [ht, hs] at he
  · rcases List.mem_append.mp he with he | he
    · exact hre e he
    · simp only [List.mem_singleton] at he
      subst he
      exact ⟨rfl, rfl, rfl⟩
  · rcases mem_alModify he with he | ⟨y, hy, rfl⟩
    · exact hre e he
    · exact hre y hy
  · rcases mem_alModify he with he | ⟨y, hy, rfl⟩
    · exact hre e he
    · exact hre y hy
  · by_cases hab : a = b
    · rw [if_pos hab] at he
      rcases mem_alModify he with he | ⟨y, hy, rfl⟩
      · exact hre e he
      · exact hre y hy
    · rw [if_neg hab] at he
      rcases hcb : alGet st.clusters b with _ | cb <;>
        simp only [hcb] at he
      · exact hre e he
      · rcases mem_alModify (mem_alErase he) with he' | ⟨y, hy, rfl⟩
        · exact hre e he'
        · exact hre y hy

theorem rolesEmpty_runClusters (ws : List (Nat × ParseWire)) :
    RolesEmpty (runClusters ws) := by
  rw [runClusters]
  have hbase : RolesEmpty ⟨0, [], []⟩ := by
    intro e he
    simp at he
  generalize hst : (⟨0, [], []⟩ : ClusterState) = st₀
  rw [hst] at hbase
  clear hst
  induction ws generalizing st₀ with
  | nil => exact hbase
  | cons w ws ih => exact ih _ (rolesEmpty_step hbase w)

/-- Every pin reference recorded on a cluster names a component of the
given key list. -/
def RolesWF (keys : List Nat) (st : ClusterState) : Prop :=
  ∀ e ∈ st.clusters, (∀ x ∈ e.2.sources, x.1 ∈ keys) ∧
    (∀ x ∈ e.2.targets, x.1 ∈ keys) ∧ (∀ x ∈ e.2.bidis, x.1 ∈ keys)

theorem rolesWF_of_empty {keys : List Nat} {st : ClusterState}
    (h : RolesEmpty st) : RolesWF keys st := by
  intro e he
  obtain ⟨h₁, h₂, h₃⟩ := h e he
  refine ⟨?_, ?_, ?_⟩ <;> intro x hx
  · rw [h₁] at hx; cases hx
  · rw [h₂] at hx; cases hx
  · rw [h₃] at hx; cases hx

theorem attachPin_rolesWF {keys : List Nat} {st st' : ClusterState} {cid : Nat}
    {comp : TCComponent} {pinId : Nat} {pin : PinInfo}
    (h : attachPin st cid comp pinId pin = some st') (hcid : cid ∈ keys)
    (hwf : RolesWF keys st) : RolesWF keys st' := by
  rw [attachPin] at h
  rcases hget : alGet st.pointTo (pinGlobalPos comp pin) with _ | cl <;>
    rw [hget] at h
  · cases h
    exact hwf
  · rcases hk : pin.kind with _ | _ | _ | _ | _ <;> rw [hk] at h <;> cases h
    all_goals {
      intro e he
      rcases mem_alModify he with he' | ⟨y, hy, rfl⟩
      · exact hwf e he'
      · obtain ⟨h₁, h₂, h₃⟩ := hwf y hy
        refine ⟨?_, ?_, ?_⟩ <;> intro x hx <;>
          first
          | exact h₁ x hx
          | exact h₂ x hx
          | exact h₃ x hx
          | (rcases List.mem_append.mp hx with hx' | hx'
             · first
               | exact h₁ x hx'
               | exact h₂ x hx'
               | exact h₃ x hx'
             · simp only [List.mem_singleton] at hx'
               subst hx'
               exact hcid)
    }

theorem attachPins_inner_rolesWF {keys : List Nat} {cid : Nat}
    {comp : TCComponent} (l : List (Nat × PinInfo)) (hcid : cid ∈ keys) :
    ∀ {st st' : ClusterState},
      l.foldl (fun acc2 pe => acc2.bind fun st2 => attachPin st2 cid comp pe.1 pe.2)
        (some st) = some st' → RolesWF keys st → RolesWF keys st' := by
  induction l with
  | nil =>
    intro st st' h hwf
    cases h
    exact hwf
  | cons pe t ih =>
    intro st st' h hwf
    rw [List.foldl_cons] at h
    rcases h₁ : attachPin st cid comp pe.1 pe.2 with _ | st₁
    · rw [show (some st).bind (fun st2 => attachPin st2 cid comp pe.1 pe.2) = none by
          simp [h₁]] at h
      rw [foldl_bind_none _ (fun a => rfl) t] at h
      cases h
    · rw [show (some st).bind (fun st2 => attachPin st2 cid comp pe.1 pe.2) = some st₁ by
          simp [h₁]] at h
      exact ih h (attachPin_rolesWF h₁ hcid hwf)

theorem attachPins_rolesWF {keys : List Nat}
    (comps : List (Nat × TCComponent)) (hk : ∀ e ∈ comps, e.1 ∈ keys) :
    ∀ {st st' : ClusterState}, attachPins comps st = some st' →
      RolesWF keys st → RolesWF keys st' := by
  induction comps with
  | nil =>
    intro st st' h hwf
    cases h
    exact hwf
  | cons e t ih =>
    intro st st' h hwf
    rw [attachPins, List.foldl_cons] at h
    rcases h₁ : e.2.info.pins.enum.foldl
        (fun acc2 pe => acc2.bind fun st2 => attachPin st2 e.1 e.2 pe.1 pe.2)
        (some st) with _ | st₁
    · rw [show (some st).bind (fun st2 => e.2.info.pins.enum.foldl
          (fun acc2 pe => acc2.bind fun st3 => attachPin st3 e.1 e.2 pe.1 pe.2)
          (some st2)) = none from by simpa using h₁] at h
      rw [foldl_bind_none _ (fun a => rfl) t] at h
      cases h
    · rw [show (some st).bind (fun st2 => e.2.info.pins.enum.foldl
          (fun acc2 pe => acc2.bind fun st3 => attachPin st3 e.1 e.2 pe.1 pe.2)
          (some st2)) = some st₁ from by simpa using h₁] at h
      have hwf₁ := attachPins_inner_rolesWF _ (hk e (List.mem_cons_self _ _)) h₁ hwf
      exact ih (fun x hx => hk x (List.mem_cons_of_mem _ hx)) h hwf₁

/-- The clusters produced by the full `clusters` computation reference
only component ids of the circuit. -/
theorem clusters_rolesWF {wires : List (Nat × ParseWire)}
    {comps : List (Nat × TCComponent)} {st' : ClusterState}
    (h : clusters wires comps = some st') :
    RolesWF (comps.map Prod.fst) st' :=
  attachPins_rolesWF comps (fun e he => List.mem_map_of_mem Prod.fst he) h
    (rolesWF_of_empty (rolesEmpty_runClusters wires))

theorem targetsFold_total (srcs : List Nat) (tl : List (Nat × Nat)) :
    ∀ g : List (Nat × List Nat), (∀ tp ∈ tl, tp.1 ∈ g.map Prod.fst) →
      (tl.foldl (tgtStep srcs) (some g)).isSome := by
  induction tl with
  | nil =>
    intro g _
    rfl
  | cons tp tl ih =>
    intro g hwf
    rw [List.foldl_cons]
    have hkey : (alGet g tp.1).isSome :=
      (alGet_isSome_iff _ _).mpr (hwf tp (List.mem_cons_self _ _))
    rw [show tgtStep srcs (some g) tp =
        some (alModify g tp.1 fun ps => setUnion ps srcs) from by
      rw [tgtStep, Option.some_bind, if_pos hkey]]
    refine ih _ ?_
    intro tq hq
    rw [alModify_map_fst]
    exact hwf tq (List.mem_cons_of_mem _ hq)

theorem mem_srcs_dedup {cl : WireCluster} {s : Nat} :
    s ∈ (cl.sources.map Prod.fst).dedup ↔ ∃ j, (s, j) ∈ cl.sources := by
  rw [List.mem_dedup, List.mem_map]
  constructor
  · rintro ⟨x, hx, rfl⟩
    exact ⟨x.2, hx⟩
  · rintro ⟨j, hj⟩
    exact ⟨(s, j), hj, rfl⟩

theorem depGraph_fold_char (cls : List WireCluster) :
    ∀ g₀ g' : List (Nat × List Nat),
      cls.foldl (fun acc cl => acc.bind fun g => depGraphStep g cl) (some g₀) =
        some g' →
      (∀ cl ∈ cls, cl.bidis = []) ∧ g'.map Prod.fst = g₀.map Prod.fst ∧
      ∀ cid ps', alGet g' cid = some ps' → ∃ ps₀, alGet g₀ cid = some ps₀ ∧
        ∀ s, s ∈ ps' ↔ s ∈ ps₀ ∨ ∃ cl ∈ cls,
          (∃ j, (s, j) ∈ cl.sources) ∧ ∃ j', (cid, j') ∈ cl.targets := by
  induction cls with
  | nil =>
    intro g₀ g' h
    cases h
    refine ⟨by simp, rfl, ?_⟩
    intro cid ps' hget
    exact ⟨ps', hget, by simp⟩
  | cons cl cls ih =>
    intro g₀ g' h
    rw [List.foldl_cons] at h
    rcases h₁ : depGraphStep g₀ cl with _ | g₁
    · rw [show (some g₀).bind (fun g => depGraphStep g cl) = none by simp [h₁],
          foldl_bind_none _ (fun a => rfl) cls] at h
      cases h
    · rw [show (some g₀).bind (fun g => depGraphStep g cl) = some g₁ by
        simp [h₁]] at h
      rw [depGraphStep] at h₁
      by_cases hb : cl.bidis = []
      · rw [if_pos hb] at h₁
        obtain ⟨hkeys₁, hchar₁⟩ := targetsFold_some_char _ _ _ _ h₁
        obtain ⟨hbidis, hkeys', hchar'⟩ := ih _ _ h
        refine ⟨?_, hkeys'.trans hkeys₁, ?_⟩
        · intro cl' hcl'
          rcases List.mem_cons.mp hcl' with rfl | hcl'
          · exact hb
          · exact hbidis cl' hcl'
        · intro cid ps' hget
          obtain ⟨ps₁, hps₁, hmem'⟩ := hchar' cid ps' hget
          obtain ⟨ps₀, hps₀, hmem₁⟩ := hchar₁ cid ps₁ hps₁
          refine ⟨ps₀, hps₀, ?_⟩
          intro s
          rw [hmem' s]
          constructor
          · rintro (hs | ⟨cl', hcl', hsrc, htgt⟩)
            · rcases (hmem₁ s).mp hs with hs' | ⟨hs', j', hj'⟩
              · exact Or.inl hs'
              · exact Or.inr ⟨cl, List.mem_cons_self _ _,
                  mem_srcs_dedup.mp hs', j', hj'⟩
            · exact Or.inr ⟨cl', List.mem_cons_of_mem _ hcl', hsrc, htgt⟩
          · rintro (hs | ⟨cl', hcl', hsrc, htgt⟩)
            · exact Or.inl ((hmem₁ s).mpr (Or.inl hs))
            · rcases List.mem_cons.mp hcl' with rfl | hcl'
              · exact Or.inl ((hmem₁ s).mpr
                  (Or.inr ⟨mem_srcs_dedup.mpr hsrc, htgt⟩))
              · exact Or.inr ⟨cl', hcl', hsrc, htgt⟩
      · rw [if_neg hb] at h₁
        cases h₁

theorem depGraph_fold_total (cls : List WireCluster) :
    ∀ g₀ : List (Nat × List Nat),
      (∀ cl ∈ cls, cl.bidis = [] ∧ ∀ tp ∈ cl.targets, tp.1 ∈ g₀.map Prod.fst) →
      (cls.foldl (fun acc cl => acc.bind fun g => depGraphStep g cl)
        (some g₀)).isSome := by
  induction cls with
  | nil =>
    intro g₀ _
    rfl
  | cons cl cls ih =>
    intro g₀ hwf
    rw [List.foldl_cons]
    obtain ⟨hb, htgt⟩ := hwf cl (List.mem_cons_self _ _)
    have hinner := targetsFold_total ((cl.sources.map Prod.fst).dedup)
      cl.targets g₀ htgt
    rcases h₁ : cl.targets.foldl (tgtStep ((cl.sources.map Prod.fst).dedup))
        (some g₀) with _ | g₁
    · rw [h₁] at hinner
      cases hinner
    · have hstep : depGraphStep g₀ cl = some g₁ := by
        rw [depGraphStep, if_pos hb, h₁]
      rw [show (some g₀).bind (fun g => depGraphStep g cl) = some g₁ by
        simp [hstep]]
      refine ih g₁ ?_
      intro cl' hcl'
      obtain ⟨hkeys₁, _⟩ := targetsFold_some_char _ _ _ _ h₁
      rw [hkeys₁]
      exact hwf cl' (List.mem_cons_of_mem _ hcl')

theorem init_alGet (comps : List (Nat × TCComponent)) (cid : Nat) :
    alGet (comps.map fun e => (e.1, ([] : List Nat))) cid =
      if cid ∈ comps.map Prod.fst then some [] else none := by
  induction comps with
  | nil => simp [alGet]
  | cons e t ih =>
    by_cases h : e.1 = cid
    · simp [alGet, h]
    · simp only [List.map_cons]
      rw [show alGet ((e.1, ([] : List Nat)) :: t.map fun e => (e.1, []))
            cid = alGet (t.map fun e => (e.1, ([] : List Nat))) cid from by
        simp [alGet, h]]
      rw [ih]
      have hmem : (cid ∈ e.1 :: t.map Prod.fst) ↔ cid ∈ t.map Prod.fst := by
        simp [Ne.symm h]
      by_cases hc : cid ∈ t.map Prod.fst
      · rw [if_pos hc, if_pos (hmem.mpr hc)]
      · rw [if_neg hc, if_neg (fun hx => hc (hmem.mp hx))]

theorem init_keys (comps : List (Nat × TCComponent)) :
    (comps.map fun e => (e.1, ([] : List Nat))).map Prod.fst =
      comps.map Prod.fst := by
  simp [List.map_map, Function.comp]

theorem dependency_graph_keys {comps : List (Nat × TCComponent)}
    {cls : List WireCluster} {g : List (Nat × List Nat)}
    (h : dependency_graph comps cls = some g) :
    g.map Prod.fst = comps.map Prod.fst := by
  obtain ⟨_, hkeys, _⟩ := depGraph_fold_char cls _ _ h
  rw [hkeys, init_keys]

theorem dependency_graph_bidis {comps : List (Nat × TCComponent)}
    {cls : List WireCluster} {g : List (Nat × List Nat)}
    (h : dependency_graph comps cls = some g) :
    ∀ cl ∈ cls, cl.bidis = [] :=
  (depGraph_fold_char cls _ _ h).1

theorem dependency_graph_char {comps : List (Nat × TCComponent)}
    {cls : List WireCluster} {g : List (Nat × List Nat)}
    (h : dependency_graph comps cls = some g) :
    ∀ cid ps, alGet g cid = some ps → ∀ s,
      s ∈ ps ↔ ∃ cl ∈ cls, (∃ j, (s, j) ∈ cl.sources) ∧
        ∃ j', (cid, j') ∈ cl.targets := by
  obtain ⟨_, _, hchar⟩ := depGraph_fold_char cls _ _ h
  intro cid ps hget s
  obtain ⟨ps₀, hps₀, hmem⟩ := hchar cid ps hget
  rw [init_alGet] at hps₀
  by_cases hc : cid ∈ comps.map Prod.fst
  · rw [if_pos hc] at hps₀
    cases hps₀
    rw [hmem s]
    simp
  · rw [if_neg hc] at hps₀
    cases hps₀

theorem dependency_graph_none_iff {comps : List (Nat × TCComponent)}
    {cls : List WireCluster}
    (hwf : ∀ cl ∈ cls, ∀ tp ∈ cl.targets, tp.1 ∈ comps.map Prod.fst) :
    dependency_graph comps cls = none ↔ ∃ cl ∈ cls, cl.bidis ≠ [] := by
  constructor
  · intro h
    by_contra hno
    push_neg at hno
    have htotal := depGraph_fold_total cls _ (fun cl hcl =>
      ⟨hno cl hcl, fun tp htp => by rw [init_keys]; exact hwf cl hcl tp htp⟩)
    rw [dependency_graph] at h
    rw [h] at htotal
    cases htotal
  · rintro ⟨cl, hcl, hne⟩
    rcases h : dependency_graph comps cls with _ | g
    · rfl
    · exact absurd (dependency_graph_bidis h cl hcl) hne

/-- C3. Dependency-graph construction fails exactly when some Net has
a non-empty bidirectional pin list; on success every component is a key,
its predecessor set consists precisely of the components appearing in the
source list of some Net whose target list contains it, and a component
that occurs in no Net's target list has an empty predecessor set. -/
theorem C3_dependency_graph_characterization
    (wires : List (Nat × ParseWire)) (comps : List (Nat × TCComponent))
    (st' : ClusterState) (h : clusters wires comps = some st') :
    (dependency_graph comps (st'.clusters.map Prod.snd) = none ↔
      ∃ cl ∈ st'.clusters.map Prod.snd, cl.bidis ≠ []) ∧
    (∀ g, dependency_graph comps (st'.clusters.map Prod.snd) = some g →
      g.map Prod.fst = comps.map Prod.fst ∧
      (∀ cid ps, alGet g cid = some ps → ∀ s,
        (s ∈ ps ↔ ∃ cl ∈ st'.clusters.map Prod.snd,
          (∃ j, (s, j) ∈ cl.sources) ∧ ∃ j', (cid, j') ∈ cl.targets)) ∧
      (∀ cid, cid ∈ comps.map Prod.fst →
        (∀ cl ∈ st'.clusters.map Prod.snd, ∀ j, (cid, j) ∉ cl.targets) →
        alGet g cid = some [])) := by
  have hwf := clusters_rolesWF h
  have htgtwf : ∀ cl ∈ st'.clusters.map Prod.snd, ∀ tp ∈ cl.targets,
      tp.1 ∈ comps.map Prod.fst := by
    intro cl hcl tp htp
    obtain ⟨e, he, rfl⟩ := List.mem_map.mp hcl
    exact (hwf e he).2.1 tp htp
  refine ⟨dependency_graph_none_iff htgtwf, ?_⟩
  intro g hg
  refine ⟨dependency_graph_keys hg, dependency_graph_char hg, ?_⟩
  intro cid hcid hno
  have hsome : (alGet g cid).isSome := by
    rw [alGet_isSome_iff, dependency_graph_keys hg]
    exact hcid
  rcases hget : alGet g cid with _ | ps
  · rw [hget] at hsome; cases hsome
  · have hchar := dependency_graph_char hg cid ps hget
    have : ps = [] := by
      rw [List.eq_nil_iff_forall_not_mem]
      intro s hs
      obtain ⟨cl, hcl, _, j', hj'⟩ := (hchar s).mp hs
      exact hno cl hcl j' hj'
    rw [this]

theorem C3_dependency_graph_characterization_witness :
    (dependency_graph [] ((runClusters [(0, ⟨⟨0, 0⟩, ⟨1, 0⟩⟩)]).clusters.map
        Prod.snd) = none ↔
      ∃ cl ∈ (runClusters [(0, ⟨⟨0, 0⟩, ⟨1, 0⟩⟩)]).clusters.map Prod.snd,
        cl.bidis ≠ []) ∧
    (∀ g, dependency_graph []
        ((runClusters [(0, ⟨⟨0, 0⟩, ⟨1, 0⟩⟩)]).clusters.map Prod.snd) = some g →
      g.map Prod.fst = (([] : List (Nat × TCComponent)).map Prod.fst) ∧
      (∀ cid ps, alGet g cid = some ps → ∀ s,
        (s ∈ ps ↔ ∃ cl ∈ (runClusters [(0, ⟨⟨0, 0⟩, ⟨1, 0⟩⟩)]).clusters.map
            Prod.snd,
          (∃ j, (s, j) ∈ cl.sources) ∧ ∃ j', (cid, j') ∈ cl.targets)) ∧
      (∀ cid, cid ∈ (([] : List (Nat × TCComponent)).map Prod.fst) →
        (∀ cl ∈ (runClusters [(0, ⟨⟨0, 0⟩, ⟨1, 0⟩⟩)]).clusters.map Prod.snd,
          ∀ j, (cid, j) ∉ cl.targets) →
        alGet g cid = some [])) :=
  C3_dependency_graph_characterization [(0, ⟨⟨0, 0⟩, ⟨1, 0⟩⟩)] [] _ rfl

/-! ### The compile pass (`TCCompiler._compile_all`) -/

/-- Failures of `TCCompiler._compile_all`: the `assert self.circuit is
None` guard, or `graphlib.CycleError` raised by `static_order()`. -/
inductive CompileError where
  | reentrant
  | cycle
deriving DecidableEq, Repr

/-- One invocation of `TCCompiler._compile_all`, abstracting the compiler
instance to its `circuit` attribute (represented by the stored circuit's
dependency graph, the only part the pass consumes) and the per-component
handler calls to the list of visited component ids.  Returns the result
together with the `circuit` attribute after the call: the assert fires
while a pass is in progress; on a cycle, `static_order()` raises from
`prepare` before yielding anything, the exception propagates and
`self.circuit` stays set; on success every component is visited and the
attribute is reset to `None`. -/
def compileAllSt (circuit : Option (List (Nat × List Nat)))
    (g : List (Nat × List Nat)) :
    Except CompileError (List Nat) × Option (List (Nat × List Nat)) :=
  match circuit with
  | some c => (.error .reentrant, some c)
  | none =>
    match topoSort g with
    | none => (.error .cycle, some g)
    | some order => (.ok order, none)

theorem compileAllSt_ok {g : List (Nat × List Nat)} {order : List Nat}
    (h : (compileAllSt none g).1 = .ok order) : topoSort g = some order := by
  rw [compileAllSt] at h
  rcases ht : topoSort g with _ | o <;> rw [ht] at h
  · cases h
  · cases h
    rfl

theorem mem_foldr_preds {g : List (Nat × List Nat)} {p : Nat}
    (h : p ∈ g.foldr (fun (e : Nat × List Nat) acc => e.2 ++ acc) []) :
    ∃ e ∈ g, p ∈ e.2 := by
  induction g with
  | nil => simp at h
  | cons e t ih =>
    rw [List.foldr_cons] at h
    rcases List.mem_append.mp h with h | h
    · exact ⟨e, List.mem_cons_self _ _, h⟩
    · obtain ⟨e', he', hp⟩ := ih h
      exact ⟨e', List.mem_cons_of_mem _ he', hp⟩

/-- C2. When the compile pass succeeds on a circuit, the handler is
invoked for every component of the circuit exactly once (and for nothing
else), and each component is visited only after every component of its
dependency-graph predecessor set. -/
theorem C2_compile_all_visits_topologically
    (wires : List (Nat × ParseWire)) (comps : List (Nat × TCComponent))
    (st' : ClusterState) (g : List (Nat × List Nat)) (order : List Nat)
    (hcl : clusters wires comps = some st')
    (hdg : dependency_graph comps (st'.clusters.map Prod.snd) = some g)
    (hkeys : (comps.map Prod.fst).Nodup)
    (hrun : (compileAllSt none g).1 = .ok order) :
    (∀ cid ∈ comps.map Prod.fst, order.count cid = 1) ∧
    (∀ x ∈ order, x ∈ comps.map Prod.fst) ∧
    (∀ n ∈ order, ∀ p ∈ predsOf g n, order.indexOf p < order.indexOf n) := by
  have hts := compileAllSt_ok hrun
  have hperm := topoSort_perm hts
  have hgkeys := dependency_graph_keys hdg
  have hwf := clusters_rolesWF hcl
  have hgnodup : (g.map Prod.fst).Nodup := by rw [hgkeys]; exact hkeys
  -- every node mentioned by `g` is a component id
  have hnodes : ∀ x, x ∈ gNodes g ↔ x ∈ comps.map Prod.fst := by
    intro x
    rw [gNodes, List.mem_dedup, List.mem_append]
    constructor
    · rintro (hx | hx)
      · rw [← hgkeys]; exact hx
      · obtain ⟨e, he, hp⟩ := mem_foldr_preds hx
        have hget : alGet g e.1 = some e.2 := by
          rcases e with ⟨n, ps⟩
          exact mem_alGet_of_nodup _ _ _ hgnodup he
        obtain ⟨cl, hcl', ⟨j, hj⟩, -⟩ :=
          (dependency_graph_char hdg e.1 e.2 hget x).mp hp
        obtain ⟨ec, hec, rfl⟩ := List.mem_map.mp hcl'
        exact (hwf ec hec).1 (x, j) hj
    · intro hx
      rw [← hgkeys] at hx
      exact Or.inl hx
  have hordermem : ∀ x, x ∈ order ↔ x ∈ comps.map Prod.fst := by
    intro x
    rw [hperm.mem_iff]
    exact hnodes x
  refine ⟨?_, fun x hx => (hordermem x).mp hx, ?_⟩
  · intro cid hcid
    have hnd : order.Nodup := topoSort_nodup hts
    have hmem : cid ∈ order := (hordermem cid).mpr hcid
    have h₁ : order.count cid ≤ 1 := List.nodup_iff_count_le_one.mp hnd cid
    have h₂ : 0 < order.count cid := List.count_pos_iff.mpr hmem
    omega
  · intro n _ p hp
    exact topoSort_edge_indexOf hts hp

/-- A one-bit driver component used by concrete examples: a single output
pin at local `(0, 0)`. -/
def exDriver : TCComponent :=
  ⟨⟨0, 0⟩, 0, ⟨.Other 0, .default, [⟨.output, 1, ⟨0, 0⟩⟩], none⟩⟩

/-- A one-bit sink component used by concrete examples: a single input
pin at local `(0, 0)`, placed at `(1, 0)`. -/
def exSink : TCComponent :=
  ⟨⟨1, 0⟩, 0, ⟨.Other 1, .default, [⟨.input, 1, ⟨0, 0⟩⟩], none⟩⟩

theorem C2_compile_all_visits_topologically_witness :
    (∀ cid ∈ ([(1, exDriver), (2, exSink)].map Prod.fst),
      ([1, 2] : List Nat).count cid = 1) ∧
    (∀ x ∈ ([1, 2] : List Nat), x ∈ [(1, exDriver), (2, exSink)].map Prod.fst) ∧
    (∀ n ∈ ([1, 2] : List Nat), ∀ p ∈ predsOf [(1, []), (2, [1])] n,
      ([1, 2] : List Nat).indexOf p < ([1, 2] : List Nat).indexOf n) :=
  C2_compile_all_visits_topologically
    [(0, ⟨⟨0, 0⟩, ⟨1, 0⟩⟩)] [(1, exDriver), (2, exSink)] _
    [(1, []), (2, [1])] [1, 2] rfl rfl (by decide) rfl

/-- C6. A circuit whose dependency graph contains a cycle fails
compilation with the cycle error and produces no partial result: no
component is visited and no order is returned. -/
theorem C6_cyclic_graph_fails (g : List (Nat × List Nat))
    (hc : hasCycle g) :
    compileAllSt none g = (.error .cycle, some g) := by
  rcases h : topoSort g with _ | order
  · rw [compileAllSt, h]
  · exact absurd hc (topoSort_acyclic h)

theorem C6_cyclic_graph_fails_witness :
    compileAllSt none [(1, [2]), (2, [1])] =
      (.error .cycle, some [(1, [2]), (2, [1])]) :=
  C6_cyclic_graph_fails [(1, [2]), (2, [1])]
    ⟨1, Relation.TransGen.tail
      (Relation.TransGen.single
        (show edgeRel [(1, [2]), (2, [1])] 1 2 from
          (by decide : (1 : Nat) ∈ predsOf [(1, [2]), (2, [1])] 2)))
      (show edgeRel [(1, [2]), (2, [1])] 2 1 from
        (by decide : (2 : Nat) ∈ predsOf [(1, [2]), (2, [1])] 1))⟩

/-- The claim of C8 as stated is false on the code: after a pass completes
successfully, `_compile_all` resets `self.circuit = None`, so a second
invocation passes the `assert self.circuit is None` guard and runs
again instead of being rejected. -/
theorem C8_counterexample :
    (compileAllSt none [(1, ([] : List Nat))]).1 = .ok [1] ∧
    (compileAllSt (compileAllSt none [(1, ([] : List Nat))]).2
      [(1, ([] : List Nat))]).1 = .ok [1] := by
  constructor <;> rfl

/-- C8 (amended). Invoking the compile pass while a pass is in
progress is rejected as a programming error, and a failed pass leaves the
guard set so any later invocation is also rejected; but after a
successfully completed pass the guard is reset, so re-invoking compile on
an instance that already completed a pass is accepted, not rejected. -/
theorem C8_reentrant_guard :
    (∀ (c : List (Nat × List Nat)) (g : List (Nat × List Nat)),
      compileAllSt (some c) g = (.error .reentrant, some c)) ∧
    (∀ (g : List (Nat × List Nat)) (order : List Nat),
      (compileAllSt none g).1 = .ok order →
      (compileAllSt none g).2 = none ∧
      ∀ g', (compileAllSt (compileAllSt none g).2 g').1 =
        (compileAllSt none g').1) ∧
    (∀ g : List (Nat × List Nat), topoSort g = none →
      compileAllSt none g = (.error .cycle, some g) ∧
      ∀ g', (compileAllSt (compileAllSt none g).2 g').1 = .error .reentrant) := by
  refine ⟨fun c g => rfl, ?_, ?_⟩
  · intro g order h
    have ht := compileAllSt_ok h
    constructor
    · rw [compileAllSt, ht]
    · intro g'
      rw [show (compileAllSt none g).2 = none by rw [compileAllSt, ht]]
  · intro g h
    have h₁ : compileAllSt none g = (.error .cycle, some g) := by
      rw [compileAllSt, h]
    refine ⟨h₁, ?_⟩
    intro g'
    rw [h₁]
    rfl

/-! ### Structural netlist export (`TC2JSON`) -/

/-- A netlist endpoint: `[name, index]`, or
`{'component': name, 'index': index}` when `port_as_dict` is set. -/
inductive Port where
  | asList (name : String) (index : Nat)
  | asDict (name : String) (index : Nat)
deriving DecidableEq, Repr

/-- Port construction `{'component': name, 'index': index} if self.port_as_dict else
[name, index]`. -/
def mkPort (port_as_dict : Bool) (name : String) (index : Nat) : Port :=
  if port_as_dict then .asDict name index else .asList name index

/-- An entry of `self.wires`:
`{'from': src, 'to': target, 'width': w}` (`src`/`dst` embed the Python
keys `from`/`to`; `from` is a Lean keyword). -/
structure JsonWire where
  src : Port
  dst : Port
  width : Nat
deriving DecidableEq, Repr

/-- The `TC2JSON` state touched by `_register_source` and `_connect`
(`nodes` is not consulted by either; clusters are keyed by id as in the
rest of this embedding). -/
structure TC2JSONState where
  port_as_dict : Bool
  wires : List JsonWire
  cluster_sources : List (Nat × (Port × Nat))
deriving DecidableEq, Repr

/-- Model of `TC2JSON._register_source`: the
`assert cluster not in self.cluster_sources, "Bus style wires not
supported"` guard, then record the port and width. -/
def register_source (st : TC2JSONState) (cluster : Nat) (name : String)
    (index width : Nat) : Option TC2JSONState :=
  if (alGet st.cluster_sources cluster).isSome then none
  else
    let port := mkPort st.port_as_dict name index
    some { st with cluster_sources := alSet st.cluster_sources cluster (port, width) }

/-- Model of `TC2JSON._connect`: the
`assert cluster in self.cluster_sources, "Missing source for wire
cluster"` guard, then emit one wire entry. -/
def connect (st : TC2JSONState) (cluster : Nat) (name : String)
    (index : Nat) : Option TC2JSONState :=
  match alGet st.cluster_sources cluster with
  | none => none
  | some (src, w) =>
    some { st with wires :=
      st.wires ++ [⟨src, mkPort st.port_as_dict name index, w⟩] }

/-- C5. The structural-netlist exporter fails when a second source is
registered on a net that already has one (registration fails exactly when
a source is present, so one is never silently replaced), and fails when an
input pin is connected on a net with no registered source. -/
theorem C5_exporter_source_errors :
    (∀ (st : TC2JSONState) (cluster : Nat) (name : String) (index width : Nat),
      register_source st cluster name index width = none ↔
        (alGet st.cluster_sources cluster).isSome) ∧
    (∀ (st st' : TC2JSONState) (cluster : Nat) (name name' : String)
        (index width index' width' : Nat),
      register_source st cluster name index width = some st' →
      register_source st' cluster name' index' width' = none) ∧
    (∀ (st : TC2JSONState) (cluster : Nat) (name : String) (index : Nat),
      connect st cluster name index = none ↔
        alGet st.cluster_sources cluster = none) := by
  refine ⟨?_, ?_, ?_⟩
  · intro st cluster name index width
    rw [register_source]
    by_cases h : (alGet st.cluster_sources cluster).isSome
    · rw [if_pos h]
      simp [h]
    · rw [if_neg h]
      simp [h]
  · intro st st' cluster name name' index width index' width' h
    rw [register_source] at h
    by_cases hs : (alGet st.cluster_sources cluster).isSome
    · rw [if_pos hs] at h
      cases h
    · rw [if_neg hs] at h
      cases h
      simp [register_source, alGet_alSet_self]
  · intro st cluster name index
    rw [connect]
    rcases h : alGet st.cluster_sources cluster with _ | sw
    · simp
    · obtain ⟨src, w⟩ := sw
      simp

theorem C5_exporter_source_errors_witness :
    (register_source ⟨false, [], []⟩ 0 "in" 0 1 = none ↔
      (alGet (TC2JSONState.mk false [] []).cluster_sources 0).isSome) ∧
    (register_source ⟨false, [], [(0, (.asList "in" 0, 1))]⟩ 0 "dup" 0 1 =
        none ↔
      (alGet (TC2JSONState.mk false []
        [(0, (.asList "in" 0, 1))]).cluster_sources 0).isSome) ∧
    register_source ⟨false, [], [(0, (.asList "in" 0, 1))]⟩ 0 "dup" 1 1 =
      none ∧
    (connect ⟨false, [], []⟩ 0 "out" 0 = none ↔
      alGet (TC2JSONState.mk false [] []).cluster_sources 0 = none) :=
  ⟨C5_exporter_source_errors.1 ⟨false, [], []⟩ 0 "in" 0 1,
   C5_exporter_source_errors.1 ⟨false, [], [(0, (.asList "in" 0, 1))]⟩
     0 "dup" 0 1,
   C5_exporter_source_errors.2.1 ⟨false, [], []⟩
     ⟨false, [], [(0, (.asList "in" 0, 1))]⟩ 0 "in" "dup" 0 1 1 1 rfl,
   C5_exporter_source_errors.2.2 ⟨false, [], []⟩ 0 "out" 0⟩

/-! ### The lazy caches of `TCCircuit` (`clear_cache`) -/

/-- The `TCCircuit` dataclass: the component and wire maps plus the two
cache fields touched by the claims (`_index` plays no role in them).
`clusterCache` and `depGraphCache` embed the Python attributes
`_clusters` and `_dependency_graph`. -/
structure TCCircuitState where
  components : List (Nat × TCComponent)
  wires : List (Nat × ParseWire)
  clusterCache : Option ClusterState := none
  depGraphCache : Option (List (Nat × List Nat)) := none
deriving DecidableEq, Repr

/-- Model of `TCCircuit.clear_cache`: `self._clusters = None` — and nothing else. -/
def clear_cache (c : TCCircuitState) : TCCircuitState :=
  { c with clusterCache := none }

/-- The `TCCircuit.clusters` property: return the cache when set,
otherwise compute and memoize (the embedding caches the successfully
completed computation). -/
def clustersProp (c : TCCircuitState) :
    Option (ClusterState × TCCircuitState) :=
  match c.clusterCache with
  | some r => some (r, c)
  | none => (clusters c.wires c.components).map
      fun r => (r, { c with clusterCache := some r })

/-- The `TCCircuit.dependency_graph` property: return the cache when set,
otherwise build the graph from the clusters property and memoize. -/
def dependency_graphProp (c : TCCircuitState) :
    Option (List (Nat × List Nat) × TCCircuitState) :=
  match c.depGraphCache with
  | some g => some (g, c)
  | none =>
    (clustersProp c).bind fun rc =>
      (dependency_graph rc.2.components (rc.1.clusters.map Prod.snd)).map
        fun g => (g, { rc.2 with depGraphCache := some g })

/-- The claim of C7 is false on the code: `clear_cache` resets only the
`_clusters` cache, so a dependency graph cached before the mutation and
the `clear_cache` call is served stale afterwards.  Concretely: a circuit
with one component caches the graph `[(1, [])]`; after its component map
is emptied and `clear_cache` is called, the next `dependency_graph`
access still returns `[(1, [])]`, while recomputing from the current
(empty) component set yields `[]`. -/
theorem C7_counterexample :
    dependency_graphProp
        { components := [(1, exDriver)], wires := [],
          clusterCache := none, depGraphCache := none } =
      some ([(1, [])],
        { components := [(1, exDriver)], wires := [],
          clusterCache := some ⟨0, [], []⟩,
          depGraphCache := some [(1, [])] }) ∧
    (dependency_graphProp (clear_cache
        { components := [], wires := [],
          clusterCache := some ⟨0, [], []⟩,
          depGraphCache := some [(1, [])] })).map Prod.fst =
      some [(1, [])] ∧
    (dependency_graphProp
        { components := [], wires := [],
          clusterCache := none, depGraphCache := none }).map Prod.fst =
      some [] ∧
    some [(1, ([] : List Nat))] ≠ some ([] : List (Nat × List Nat)) := by
  refine ⟨rfl, rfl, rfl, ?_⟩
  decide

/-- C7 (amended). The operation `clear_cache` invalidates only the cached Net
partition: the component and wire maps and the cached dependency graph
are left untouched, so a dependency graph cached before `clear_cache` is
returned unchanged (not recomputed) by the next access. -/
theorem C7_clear_cache_only_clusters (c : TCCircuitState) :
    (clear_cache c).components = c.components ∧
    (clear_cache c).wires = c.wires ∧
    (clear_cache c).clusterCache = none ∧
    (clear_cache c).depGraphCache = c.depGraphCache ∧
    (∀ g, c.depGraphCache = some g →
      dependency_graphProp (clear_cache c) = some (g, clear_cache c)) := by
  refine ⟨rfl, rfl, rfl, rfl, ?_⟩
  intro g hg
  rw [dependency_graphProp]
  have : (clear_cache c).depGraphCache = some g := hg
  rw [this]

theorem C7_clear_cache_only_clusters_witness :
    (clear_cache
      { components := [], wires := [], clusterCache := some ⟨0, [], []⟩,
        depGraphCache := some [(1, [])] }).components = [] ∧
    (clear_cache
      { components := [], wires := [], clusterCache := some ⟨0, [], []⟩,
        depGraphCache := some [(1, [])] }).wires = [] ∧
    (clear_cache
      { components := [], wires := [], clusterCache := some ⟨0, [], []⟩,
        depGraphCache := some [(1, [])] }).clusterCache = none ∧
    (clear_cache
      { components := [], wires := [], clusterCache := some ⟨0, [], []⟩,
        depGraphCache := some [(1, [])] }).depGraphCache =
      (TCCircuitState.mk [] [] (some ⟨0, [], []⟩)
        (some [(1, [])])).depGraphCache ∧
    dependency_graphProp (clear_cache
      { components := [], wires := [], clusterCache := some ⟨0, [], []⟩,
        depGraphCache := some [(1, [])] }) =
      some ([(1, [])], clear_cache
        { components := [], wires := [], clusterCache := some ⟨0, [], []⟩,
          depGraphCache := some [(1, [])] }) := by
  obtain ⟨h₁, h₂, h₃, h₄, h₅⟩ := C7_clear_cache_only_clusters
    { components := [], wires := [], clusterCache := some ⟨0, [], []⟩,
      depGraphCache := some [(1, [])] }
  exact ⟨h₁, h₂, h₃, h₄, h₅ [(1, [])] rfl⟩

/-! ### Custom-kind descriptor loading (`ComponentFactory._fully_load`)

Only the `needs_virtual`/`category`/`counterpart` computation is embedded
(the geometric recentering of the descriptor is irrelevant to the claims
about it). -/

/-- Python equality between a `ComponentKind` member and the
`ComponentCategory.has_virtual` member, as written in the source line
`if c.info.kind == ComponentCategory.has_virtual:` — members of distinct
Python `Enum` classes never compare equal, so this is constantly
`False`. -/
def pyKindEqHasVirtualCategory (k : ComponentKind) : Bool := false

/-- The `needs_virtual` flag computed by `ComponentFactory._fully_load`
over the inner schematic's components. -/
def needs_virtual (schematic : List (Nat × TCComponent)) : Bool :=
  schematic.any fun e => pyKindEqHasVirtualCategory e.2.info.kind

/-- The `category` field of the `ComponentInfo` built by `_fully_load`. -/
def fullyLoadCategory (schematic : List (Nat × TCComponent)) :
    ComponentCategory :=
  if needs_virtual schematic then .has_virtual else .default

/-- The `counterpart` field of the `ComponentInfo` built by
`_fully_load`. -/
def fullyLoadCounterpart (schematic : List (Nat × TCComponent)) :
    Option ComponentKind :=
  if needs_virtual schematic then some .VirtualCustom else none

/-- An inner component that requires a virtual counterpart (its
descriptor has category `has_virtual`). -/
def exVirtualInner : TCComponent :=
  ⟨⟨0, 0⟩, 0, ⟨.Other 2, .has_virtual, [], some .VirtualCustom⟩⟩

/-- The code evaluated at the failing input of C9: a nested schematic
containing an inner component whose descriptor category is
`has_virtual`.  The claim (and the spec) say the resulting descriptor
must then have category `has_virtual` with the virtual custom kind as
counterpart; the code compares `c.info.kind` (a `ComponentKind`) against
`ComponentCategory.has_virtual`, which is always `False` across Python
enum classes, so `needs_virtual` never becomes true and the descriptor
gets category `default` with no counterpart. -/
theorem C9_virtual_propagation_kind_category_confusion :
    (1, exVirtualInner).2.info.category = ComponentCategory.has_virtual ∧
    needs_virtual [(1, exVirtualInner)] = false ∧
    fullyLoadCategory [(1, exVirtualInner)] = ComponentCategory.default ∧
    fullyLoadCounterpart [(1, exVirtualInner)] = none := by
  refine ⟨rfl, rfl, rfl, rfl⟩

/-! ### Circuit construction from parser output
(`TCCircuit.from_parse_state`) -/

/-- A placed-component record of the external parser
(`save_monger.ParseComponent`), restricted to the fields
`from_parse_state` consumes. -/
structure ParseComponent where
  kind : ComponentKind
  position : Point
  rotation : Fin 4
deriving DecidableEq, Repr

/-- Instantiation of the registered class for a kind
(`TCComponent.registry[kind](c)` resolving to `TCComponent.build`):
position and rotation come from the record, `info` is the class-level
descriptor for the kind.  `infoOf` abstracts the static
`COMPONENT_INFOS` table together with the custom-kind loader. -/
def buildComponent (infoOf : ComponentKind → ComponentInfo)
    (k : ComponentKind) (c : ParseComponent) : TCComponent :=
  ⟨c.position, c.rotation, infoOf k⟩

/-- Model of `TCCircuit.from_parse_state`: ids are assigned as `len(res) + 1` in
record order; a record whose kind descriptor has category `has_virtual`
additionally instantiates the counterpart kind from the same record under
the next id (the `assert`s on `counterpart` are the `none` results). -/
def from_parse_state (infoOf : ComponentKind → ComponentInfo)
    (records : List ParseComponent) : Option (List (Nat × TCComponent)) :=
  records.foldl
    (fun acc c =>
      acc.bind fun res =>
        let base := buildComponent infoOf c.kind c
        let res := res ++ [(res.length + 1, base)]
        if base.info.category = ComponentCategory.has_virtual then
          match base.info.counterpart with
          | none => none
          | some k => some (res ++ [(res.length + 1, buildComponent infoOf k c)])
        else
          match base.info.counterpart with
          | some _ => none
          | none => some res)
    (some [])

/-- Written from the claim: each parsed record becomes its base
component, followed — when its kind descriptor has category
`has_virtual` — by the counterpart kind instantiated from the same
record. -/
def expandRecord (infoOf : ComponentKind → ComponentInfo)
    (c : ParseComponent) : List TCComponent :=
  if (infoOf c.kind).category = ComponentCategory.has_virtual then
    match (infoOf c.kind).counterpart with
    | some k => [buildComponent infoOf c.kind c, buildComponent infoOf k c]
    | none => [buildComponent infoOf c.kind c]
  else [buildComponent infoOf c.kind c]

/-- Written from the claim: number a list with consecutive ids starting
at `k`. -/
def numberFrom {α : Type} : Nat → List α → List (Nat × α)
  | _, [] => []
  | k, a :: t => (k, a) :: numberFrom (k + 1) t

theorem numberFrom_append {α : Type} (k : Nat) (l₁ l₂ : List α) :
    numberFrom k (l₁ ++ l₂) =
      numberFrom k l₁ ++ numberFrom (k + l₁.length) l₂ := by
  induction l₁ generalizing k with
  | nil => simp [numberFrom]
  | cons a t ih =>
    simp only [List.cons_append, numberFrom, List.append_eq, ih,
      List.length_cons]
    rw [show k + (t.length + 1) = k + 1 + t.length from by omega]

theorem numberFrom_map_fst {α : Type} (k : Nat) (l : List α) :
    (numberFrom k l).map Prod.fst = List.range' k l.length := by
  induction l generalizing k with
  | nil => simp [numberFrom]
  | cons a t ih => simp [numberFrom, List.range', ih]

theorem numberFrom_length {α : Type} (k : Nat) (l : List α) :
    (numberFrom k l).length = l.length := by
  induction l generalizing k with
  | nil => rfl
  | cons a t ih => simp [numberFrom, ih]

theorem from_parse_state_aux (infoOf : ComponentKind → ComponentInfo)
    (hwf : ∀ k, ((infoOf k).category = ComponentCategory.has_virtual →
        (infoOf k).counterpart ≠ none) ∧
      ((infoOf k).category ≠ ComponentCategory.has_virtual →
        (infoOf k).counterpart = none)) :
    ∀ (records : List ParseComponent) (acc : List (Nat × TCComponent)),
      records.foldl
        (fun acc c =>
          acc.bind fun res =>
            let base := buildComponent infoOf c.kind c
            let res := res ++ [(res.length + 1, base)]
            if base.info.category = ComponentCategory.has_virtual then
              match base.info.counterpart with
              | none => none
              | some k => some (res ++ [(res.length + 1, buildComponent infoOf k c)])
            else
              match base.info.counterpart with
              | some _ => none
              | none => some res)
        (some acc) =
      some (acc ++ numberFrom (acc.length + 1)
        (records.flatMap (expandRecord infoOf))) := by
  intro records
  induction records with
  | nil =>
    intro acc
    simp [numberFrom]
  | cons c t ih =>
    intro acc
    rw [List.foldl_cons, Option.some_bind]
    by_cases hv : (infoOf c.kind).category = ComponentCategory.has_virtual
    · obtain ⟨k, hk⟩ :=
        Option.ne_none_iff_exists'.mp ((hwf c.kind).1 hv)
      simp only [buildComponent] at *
      rw [show (if (infoOf c.kind).category = ComponentCategory.has_virtual then
            match (infoOf c.kind).counterpart with
            | none => none
            | some k => some ((acc ++ [(acc.length + 1,
                (⟨c.position, c.rotation, infoOf c.kind⟩ : TCComponent))]) ++
              [((acc ++ [(acc.length + 1,
                (⟨c.position, c.rotation, infoOf c.kind⟩ : TCComponent))]).length + 1,
                (⟨c.position, c.rotation, infoOf k⟩ : TCComponent))])
          else
            match (infoOf c.kind).counterpart with
            | some _ => none
            | none => some (acc ++ [(acc.length + 1,
              (⟨c.position, c.rotation, infoOf c.kind⟩ : TCComponent))])) =
          some ((acc ++ [(acc.length + 1,
              (⟨c.position, c.rotation, infoOf c.kind⟩ : TCComponent))]) ++
            [((acc ++ [(acc.length + 1,
              (⟨c.position, c.rotation, infoOf c.kind⟩ : TCComponent))]).length + 1,
              (⟨c.position, c.rotation, infoOf k⟩ : TCComponent))]) from by
        rw [if_pos hv, hk]]
      rw [ih]
      congr 1
      rw [List.flatMap_cons, numberFrom_append]
      simp only [expandRecord, if_pos hv, hk, buildComponent]
      simp [numberFrom, List.append_assoc]
    · have hnone := (hwf c.kind).2 hv
      simp only [buildComponent] at *
      rw [show (if (infoOf c.kind).category = ComponentCategory.has_virtual then
            match (infoOf c.kind).counterpart with
            | none => none
            | some k => some ((acc ++ [(acc.length + 1,
                (⟨c.position, c.rotation, infoOf c.kind⟩ : TCComponent))]) ++
              [((acc ++ [(acc.length + 1,
                (⟨c.position, c.rotation, infoOf c.kind⟩ : TCComponent))]).length + 1,
                (⟨c.position, c.rotation, infoOf k⟩ : TCComponent))])
          else
            match (infoOf c.kind).counterpart with
            | some _ => none
            | none => some (acc ++ [(acc.length + 1,
              (⟨c.position, c.rotation, infoOf c.kind⟩ : TCComponent))])) =
          some (acc ++ [(acc.length + 1,
            (⟨c.position, c.rotation, infoOf c.kind⟩ : TCComponent))]) from by
        rw [if_neg hv, hnone]]
      rw [ih]
      congr 1
      rw [List.flatMap_cons, numberFrom_append]
      simp only [expandRecord, if_neg hv, buildComponent]
      simp [numberFrom, List.append_assoc]

/-- C10. Constructing a circuit from parser output assigns component
ids as consecutive integers starting at 1 in parser order, instantiating
for every record whose kind descriptor has category `has_virtual` the
counterpart kind from the same record (same position and rotation) under
the next consecutive id, so the component count exceeds the record count
by the number of `has_virtual` records.  (The hypothesis is the registry
invariant checked by the `assert`s: a descriptor has a counterpart
exactly when its category is `has_virtual`.) -/
theorem C10_from_parse_state_ids (infoOf : ComponentKind → ComponentInfo)
    (records : List ParseComponent)
    (hwf : ∀ k, ((infoOf k).category = ComponentCategory.has_virtual →
        (infoOf k).counterpart ≠ none) ∧
      ((infoOf k).category ≠ ComponentCategory.has_virtual →
        (infoOf k).counterpart = none)) :
    from_parse_state infoOf records =
      some (numberFrom 1 (records.flatMap (expandRecord infoOf))) ∧
    (records.flatMap (expandRecord infoOf)).length =
      records.length + (records.filter fun c =>
        decide ((infoOf c.kind).category = ComponentCategory.has_virtual)).length ∧
    (numberFrom 1 (records.flatMap (expandRecord infoOf))).map Prod.fst =
      List.range' 1 (records.flatMap (expandRecord infoOf)).length := by
  refine ⟨?_, ?_, numberFrom_map_fst 1 _⟩
  · have := from_parse_state_aux infoOf hwf records []
    rw [from_parse_state]
    simpa using this
  · induction records with
    | nil => rfl
    | cons c t ih =>
      rw [List.flatMap_cons, List.length_append, ih]
      by_cases hv : (infoOf c.kind).category = ComponentCategory.has_virtual
      · obtain ⟨k, hk⟩ := Option.ne_none_iff_exists'.mp ((hwf c.kind).1 hv)
        rw [show (expandRecord infoOf c).length = 2 from by
          simp [expandRecord, if_pos hv, hk]]
        rw [show (List.filter (fun c => decide ((infoOf c.kind).category =
            ComponentCategory.has_virtual)) (c :: t)).length =
          (List.filter (fun c => decide ((infoOf c.kind).category =
            ComponentCategory.has_virtual)) t).length + 1 from by
          simp [List.filter_cons, hv]]
        simp only [List.length_cons]
        omega
      · have hnone := (hwf c.kind).2 hv
        rw [show (expandRecord infoOf c).length = 1 from by
          simp [expandRecord, if_neg hv]]
        rw [show (List.filter (fun c => decide ((infoOf c.kind).category =
            ComponentCategory.has_virtual)) (c :: t)).length =
          (List.filter (fun c => decide ((infoOf c.kind).category =
            ComponentCategory.has_virtual)) t).length from by
          simp [List.filter_cons, hv]]
        simp only [List.length_cons]
        omega

/-- A concrete kind-descriptor table for the C10 witness: kind `Other 0`
has a virtual counterpart, everything else is plain. -/
def exInfoOf : ComponentKind → ComponentInfo
  | .Other 0 => ⟨.Other 0, .has_virtual, [], some .VirtualCustom⟩
  | .VirtualCustom => ⟨.VirtualCustom, .is_virtual, [], none⟩
  | k => ⟨k, .default, [], none⟩

theorem exInfoOf_wf : ∀ k, ((exInfoOf k).category =
      ComponentCategory.has_virtual → (exInfoOf k).counterpart ≠ none) ∧
    ((exInfoOf k).category ≠ ComponentCategory.has_virtual →
      (exInfoOf k).counterpart = none) := by
  intro k
  rcases k with _ | _ | n
  · exact ⟨fun h => by simp [exInfoOf] at h, fun _ => rfl⟩
  · exact ⟨fun h => by simp [exInfoOf] at h, fun _ => rfl⟩
  · cases n with
    | zero => exact ⟨fun _ => by simp [exInfoOf], fun h => absurd rfl h⟩
    | succ m => exact ⟨fun h => by simp [exInfoOf] at h, fun _ => rfl⟩

theorem C10_from_parse_state_ids_witness :
    from_parse_state exInfoOf
        [⟨.Other 0, ⟨0, 0⟩, 0⟩, ⟨.Other 5, ⟨1, 2⟩, 1⟩] =
      some (numberFrom 1
        ([⟨.Other 0, ⟨0, 0⟩, 0⟩, (⟨.Other 5, ⟨1, 2⟩, 1⟩ : ParseComponent)].flatMap
          (expandRecord exInfoOf))) ∧
    ([⟨.Other 0, ⟨0, 0⟩, 0⟩, (⟨.Other 5, ⟨1, 2⟩, 1⟩ : ParseComponent)].flatMap
        (expandRecord exInfoOf)).length =
      ([⟨.Other 0, ⟨0, 0⟩, 0⟩,
        (⟨.Other 5, ⟨1, 2⟩, 1⟩ : ParseComponent)] : List ParseComponent).length +
      (([⟨.Other 0, ⟨0, 0⟩, 0⟩,
          (⟨.Other 5, ⟨1, 2⟩, 1⟩ : ParseComponent)] : List ParseComponent).filter
        fun c => decide ((exInfoOf c.kind).category =
          ComponentCategory.has_virtual)).length ∧
    (numberFrom 1
        ([⟨.Other 0, ⟨0, 0⟩, 0⟩, (⟨.Other 5, ⟨1, 2⟩, 1⟩ : ParseComponent)].flatMap
          (expandRecord exInfoOf))).map Prod.fst =
      List.range' 1
        ([⟨.Other 0, ⟨0, 0⟩, 0⟩, (⟨.Other 5, ⟨1, 2⟩, 1⟩ : ParseComponent)].flatMap
          (expandRecord exInfoOf)).length :=
  C10_from_parse_state_ids exInfoOf
    [⟨.Other 0, ⟨0, 0⟩, 0⟩, ⟨.Other 5, ⟨1, 2⟩, 1⟩] exInfoOf_wf

theorem C8_reentrant_guard_witness :
    compileAllSt (some []) [(1, ([] : List Nat))] =
      (.error .reentrant, some []) ∧
    ((compileAllSt none [(1, ([] : List Nat))]).2 = none ∧
      ∀ g', (compileAllSt (compileAllSt none [(1, ([] : List Nat))]).2 g').1 =
        (compileAllSt none g').1) ∧
    (compileAllSt none [(1, [2]), (2, [1])] =
        (.error .cycle, some [(1, [2]), (2, [1])]) ∧
      ∀ g', (compileAllSt (compileAllSt none [(1, [2]), (2, [1])]).2 g').1 =
        .error .reentrant) :=
  ⟨C8_reentrant_guard.1 [] [(1, [])],
   C8_reentrant_guard.2.1 [(1, [])] [1] rfl,
   C8_reentrant_guard.2.2 [(1, [2]), (2, [1])] rfl⟩

end TCC
